import Mathlib

/-!
Verification development for the quotient-polynomial computation and
commitment stage of a STARK prover
(crates/stark-backend/src/prover/cpu/quotient/mod.rs).

The Rust code is shallowly embedded below.  Machine integers (usize, u8)
become Nat, with explicit % 2^8 where the code performs an `as u8` cast.
Rust panics (assert_eq!, expect, log2_strict_usize) become Except / Option
failure values.  The external polynomial-commitment collaborator (domains,
commitment primitive) and the parts of the crate that are only declared
here (trace views, the symbolic constraint DAG, the per-point evaluation
kernel) are modelled from the specification, as marked on each definition.
-/

/-- Failure conditions of the quotient stage.  Each constructor corresponds
to one panic site in the Rust code: the two assert_eq! length checks, the
expect on a phase view without a committed matrix, and log2_strict_usize. -/
inductive ProverError where
  | lengthMismatch
  | gapInChallengePhase
  | log2StrictFailure
deriving DecidableEq

/-- Fuel-driven floor base-2 logarithm (kernel computable). -/
def log2_fuel : Nat → Nat → Nat
  | 0, _ => 0
  | f + 1, n => if n ≤ 1 then 0 else 1 + log2_fuel f (n / 2)

/-- Floor base-2 logarithm, n ↦ max { k | 2^k ≤ n } (and 0 at 0). -/
def nat_log2 (n : Nat) : Nat := log2_fuel n n

/-- Fuel-driven ceiling base-2 logarithm (kernel computable). -/
def clog2_fuel : Nat → Nat → Nat
  | 0, _ => 0
  | f + 1, n => if n ≤ 1 then 0 else 1 + clog2_fuel f ((n + 1) / 2)

/-- Ceiling base-2 logarithm, as used by the domain provider to round a
requested size up to a power of two. -/
def nat_clog2 (n : Nat) : Nat := clog2_fuel n n

/-- Model of p3_util::log2_strict_usize: the base-2 logarithm of n when n is
an exact power of two, and a failure value (the Rust function panics)
otherwise. -/
def log2_strict_usize (n : Nat) : Option Nat :=
  if 2 ^ nat_log2 n = n then some (nat_log2 n) else none

/-- Modelled from the spec: an evaluation domain is a multiplicative coset
of size a power of two, characterised by a generator and a coset shift.
The size is stored as its base-2 logarithm, so a domain value always has
power-of-two size, as in the two-adic coset type of the external domain
provider. -/
structure Domain (F : Type) where
  logN : Nat
  shift : F
  gen : F
deriving DecidableEq

/-- Number of points of the domain. -/
def Domain.size {F : Type} (d : Domain F) : Nat := 2 ^ d.logN

/-- The i-th point of the domain: shift * gen^i. -/
def Domain.point {F : Type} [Field F] (d : Domain F) (i : Nat) : F :=
  d.shift * d.gen ^ i

/-- Membership of a field element in the point set of the domain. -/
def Domain.mem_pt {F : Type} [Field F] (d : Domain F) (x : F) : Prop :=
  ∃ i, i < d.size ∧ x = d.point i

/-- Evaluation of the vanishing (zerofier) polynomial of the domain at a
point: (x / shift)^size - 1, zero exactly on the domain's coset. -/
def Domain.zp_at {F : Type} [Field F] (d : Domain F) (x : F) : F :=
  (x / d.shift) ^ d.size - 1

/-- Modelled from the spec: the constants of the two-adic field that the
external domain provider draws on.  rootOfLog k is a root of unity of
order 2^k (exactly of that order up to the field's two-adicity maxLog,
with the compatibility rootOfLog j = rootOfLog (j+k) ^ 2^k between
levels), and mulGen is the multiplicative-group generator used to shift a
coset off the subgroup; its order is not a power of two, which is what
makes shifted cosets disjoint from the original subgroup. -/
structure TwoAdicParams (F : Type) [Field F] where
  maxLog : Nat
  rootOfLog : Nat → F
  mulGen : F
  mulGen_ne_zero : mulGen ≠ 0
  mulGen_two_pow_ne_one : ∀ a : Nat, mulGen ^ 2 ^ a ≠ 1
  root_pow : ∀ k : Nat, rootOfLog k ^ 2 ^ k = 1
  root_inj : ∀ k : Nat, k ≤ maxLog → ∀ a : Nat, rootOfLog k ^ a = 1 → 2 ^ k ∣ a
  root_compat : ∀ j k : Nat, j + k ≤ maxLog → rootOfLog j = rootOfLog (j + k) ^ 2 ^ k

/-- Modelled from the spec: the provider's canonical domain of a given
power-of-two size: the subgroup of that order, with trivial shift. -/
def natural_domain_for_degree {F : Type} [Field F] (P : TwoAdicParams F) (n : Nat) :
    Domain F :=
  ⟨nat_log2 n, 1, P.rootOfLog (nat_log2 n)⟩

/-- Modelled from the spec: a disjoint coset of at least the requested size
derived from an existing domain, obtained by rounding the size up to a
power of two and multiplying the shift by the field's multiplicative
generator. -/
def Domain.create_disjoint_domain {F : Type} [Field F] (P : TwoAdicParams F)
    (d : Domain F) (minSize : Nat) : Domain F :=
  ⟨nat_clog2 minSize, d.shift * P.mulGen, P.rootOfLog (nat_clog2 minSize)⟩

/-- Modelled from the spec: splitting a domain of size N into k disjoint
sub-cosets of size N/k; the i-th sub-coset is shifted by the i-th power of
the parent generator. -/
def Domain.split_domains {F : Type} [Field F] (P : TwoAdicParams F)
    (d : Domain F) (k : Nat) : List (Domain F) :=
  (List.range k).map fun i =>
    ⟨d.logN - nat_log2 k, d.shift * d.gen ^ i, P.rootOfLog (d.logN - nat_log2 k)⟩

/-- Row-major matrix of field elements, as in p3_matrix. -/
structure RowMajorMatrix (α : Type) where
  values : List α
  width : Nat
deriving DecidableEq

/-- Number of rows of the matrix. -/
def RowMajorMatrix.height {α : Type} (m : RowMajorMatrix α) : Nat :=
  m.values.length / m.width

/-- One-column matrix over a value vector. -/
def RowMajorMatrix.new_col {α : Type} (v : List α) : RowMajorMatrix α := ⟨v, 1⟩

/-- The j-th row of the matrix. -/
def RowMajorMatrix.row {α : Type} (m : RowMajorMatrix α) (j : Nat) : List α :=
  (m.values.drop (j * m.width)).take m.width

/-- Entry at row r, column c (0 outside the stored values). -/
def RowMajorMatrix.entry {α : Type} [Zero α] (m : RowMajorMatrix α)
    (r c : Nat) : α :=
  m.values.getD (r * m.width + c) 0

/-- Modelled from the spec: the fixed-degree extension-field representation.
dDeg is the extension degree and toCoeffs reinterprets an extension element
as its vector of base-field coefficients, with no numeric change. -/
structure ExtParams (F C : Type) where
  dDeg : Nat
  dDeg_pos : 0 < dDeg
  toCoeffs : C → List F
  toCoeffs_length : ∀ c : C, (toCoeffs c).length = dDeg

/-- Modelled from the spec: reinterpret a matrix of extension-field elements
as a base-field matrix, each element flattened to its dDeg coefficients. -/
def RowMajorMatrix.flatten_to_base {F C : Type} (E : ExtParams F C)
    (m : RowMajorMatrix C) : RowMajorMatrix F :=
  ⟨m.values.flatMap E.toCoeffs, m.width * E.dDeg⟩

/-- Modelled from the spec: partition the rows of a matrix over a domain
into num_chunks matrices, the i-th collecting the rows whose index is
congruent to i modulo num_chunks, matching the points of the i-th
sub-coset of the domain. -/
def RowMajorMatrix.split_evals {α : Type} (num_chunks : Nat)
    (m : RowMajorMatrix α) : List (RowMajorMatrix α) :=
  (List.range num_chunks).map fun i =>
    ⟨((List.range (m.height / num_chunks)).map fun r =>
        m.row (r * num_chunks + i)).flatten, m.width⟩

/-- Modelled from the spec: one interaction phase of a trace view: an
optional committed matrix of extra columns produced by that round, the
round's random challenges, and the values it exposed publicly. -/
structure PhaseView (M C : Type) where
  inner : Option M
  challenges : List C
  exposed_values : List C

/-- Modelled from the spec: the challenge-independent part of a trace view:
the base-2 logarithm of the trace height (a u8 in the Rust code), an
optional preprocessed matrix, the partitioned main trace matrices, and the
public input values. -/
structure PairView (M F : Type) where
  log_trace_height : Nat
  preprocessed : Option M
  partitioned_main : List M
  public_values : List F

/-- Modelled from the spec: a full trace view for one RAP: the pair view
plus the ordered list of interaction-phase views.  All matrices are
already the low-degree extension onto the quotient domain. -/
structure RapView (M F C : Type) where
  pair : PairView M F
  per_phase : List (PhaseView M C)

/-- Modelled from the spec: one node of the constraint-system expression
DAG.  Leaves reference a main-trace cell (partition, column, rotation), a
preprocessed cell, an interaction-phase cell, a public input, a per-phase
challenge or a per-phase exposed value, or hold a constant; internal nodes
are field operations whose operands are indices of earlier nodes. -/
inductive SymbolicNode (F : Type) where
  | constant (c : F)
  | traceCell (part col offset : Nat)
  | preprocessedCell (col offset : Nat)
  | permutationCell (phase col offset : Nat)
  | publicValue (idx : Nat)
  | challengeVar (phase idx : Nat)
  | exposedVar (phase idx : Nat)
  | add (l r : Nat)
  | sub (l r : Nat)
  | mul (l r : Nat)
  | neg (x : Nat)
deriving DecidableEq

/-- Modelled from the spec: a constraint system as a shared-subexpression
arena: the node list (operands reference earlier indices) and the indices
of the top-level constraints in their fixed declared order; mirrors
SymbolicExpressionDag of the crate's air_builders::symbolic module. -/
structure SymbolicExpressionDag (F : Type) where
  nodes : List (SymbolicNode F)
  constraint_idx : List Nat
deriving DecidableEq

/-- Indices of the operand nodes referenced by a node. -/
def node_children {F : Type} : SymbolicNode F → List Nat
  | .add l r => [l, r]
  | .sub l r => [l, r]
  | .mul l r => [l, r]
  | .neg x => [x]
  | _ => []

/-- A node arena is well formed when every operand reference points to a
strictly earlier node. -/
def dag_wf {F : Type} (nodes : List (SymbolicNode F)) : Prop :=
  ∀ j : Nat, j < nodes.length →
    ∀ c ∈ node_children (nodes.getD j (.publicValue 0)), c < j

instance {F : Type} [DecidableEq F] (nodes : List (SymbolicNode F)) :
    Decidable (dag_wf nodes) := by
  unfold dag_wf; infer_instance

/-- Modelled from the spec: the data bound by the evaluation environment of
one point: the quotient-domain size and the read-only inputs shared by all
points of one RAP. -/
structure EvalCtx (F C : Type) where
  size : Nat
  preprocessed : Option (RowMajorMatrix F)
  partitioned_main : List (RowMajorMatrix F)
  after_challenge : List (RowMajorMatrix F)
  challenges : List (List C)
  public_values : List F
  exposed : List (List C)

/-- Modelled from the spec: the value of one DAG node at point index i,
given the memoised values vals of all earlier nodes.  Trace-cell leaves
read row (i + offset) mod size of the pre-extended matrices; internal
nodes combine earlier values. -/
def eval_node {F C : Type} [Field F] [Field C] (ctx : EvalCtx F C)
    (emb : F →+* C) (i : Nat) (vals : List C) : SymbolicNode F → C
  | .constant c => emb c
  | .traceCell part col off =>
      emb ((ctx.partitioned_main.getD part ⟨[], 1⟩).entry ((i + off) % ctx.size) col)
  | .preprocessedCell col off =>
      emb ((ctx.preprocessed.getD ⟨[], 1⟩).entry ((i + off) % ctx.size) col)
  | .permutationCell phase col off =>
      emb ((ctx.after_challenge.getD phase ⟨[], 1⟩).entry ((i + off) % ctx.size) col)
  | .publicValue idx => emb (ctx.public_values.getD idx 0)
  | .challengeVar phase idx => (ctx.challenges.getD phase []).getD idx 0
  | .exposedVar phase idx => (ctx.exposed.getD phase []).getD idx 0
  | .add l r => vals.getD l 0 + vals.getD r 0
  | .sub l r => vals.getD l 0 - vals.getD r 0
  | .mul l r => vals.getD l 0 * vals.getD r 0
  | .neg x => -(vals.getD x 0)

/-- Modelled from the spec: one pass of the memoised arena walk, extending
the buffer of already-computed node values by the remaining nodes in
order. -/
def eval_nodes_from {F C : Type} [Field F] [Field C] (ctx : EvalCtx F C)
    (emb : F →+* C) (i : Nat) : List C → List (SymbolicNode F) → List C
  | vals, [] => vals
  | vals, n :: ns =>
      eval_nodes_from ctx emb i (vals ++ [eval_node ctx emb i vals n]) ns

/-- Modelled from the spec: the memoised values of all DAG nodes at point
index i, each node evaluated exactly once in arena order. -/
def eval_nodes {F C : Type} [Field F] [Field C] (ctx : EvalCtx F C)
    (emb : F →+* C) (i : Nat) (nodes : List (SymbolicNode F)) : List C :=
  eval_nodes_from ctx emb i [] nodes

/-- Reference evaluator: the value of node j at point index i by direct
structural recursion through the operand references, fuel-bounded. -/
def eval_rec_fuel {F C : Type} [Field F] [Field C] (ctx : EvalCtx F C)
    (emb : F →+* C) (i : Nat) (nodes : List (SymbolicNode F)) :
    Nat → Nat → C
  | 0, _ => 0
  | fuel + 1, j =>
      match nodes.getD j (.publicValue 0) with
      | .add l r =>
          eval_rec_fuel ctx emb i nodes fuel l + eval_rec_fuel ctx emb i nodes fuel r
      | .sub l r =>
          eval_rec_fuel ctx emb i nodes fuel l - eval_rec_fuel ctx emb i nodes fuel r
      | .mul l r =>
          eval_rec_fuel ctx emb i nodes fuel l * eval_rec_fuel ctx emb i nodes fuel r
      | .neg x => -(eval_rec_fuel ctx emb i nodes fuel x)
      | n => eval_node ctx emb i [] n

/-- Reference value of node j at point index i: the fuel j+1 suffices for a
well-formed arena since operands strictly decrease. -/
def eval_node_rec {F C : Type} [Field F] [Field C] (ctx : EvalCtx F C)
    (emb : F →+* C) (i : Nat) (nodes : List (SymbolicNode F)) (j : Nat) : C :=
  eval_rec_fuel ctx emb i nodes (j + 1) j

/-- Modelled from the spec: the per-system quotient evaluator.  For every
point of the quotient domain it runs one memoised arena walk of the
constraint DAG, combines the top-level constraint values in declared order
by acc * alpha + value, and divides by the trace domain's vanishing
polynomial at that point; mirrors compute_single_rap_quotient_values of
the crate's prover::cpu::quotient::single module. -/
def compute_single_rap_quotient_values {F C : Type} [Field F] [Field C]
    (emb : F →+* C) (constraints : SymbolicExpressionDag F)
    (trace_domain quotient_domain : Domain F)
    (preprocessed : Option (RowMajorMatrix F))
    (partitioned_main : List (RowMajorMatrix F))
    (after_challenge_lde_on_quotient_domain : List (RowMajorMatrix F))
    (challenges : List (List C)) (alpha : C) (public_values : List F)
    (exposed_values_after_challenge : List (List C)) : List C :=
  let ctx : EvalCtx F C :=
    ⟨quotient_domain.size, preprocessed, partitioned_main,
      after_challenge_lde_on_quotient_domain, challenges, public_values,
      exposed_values_after_challenge⟩
  (List.range quotient_domain.size).map fun i =>
    let vals := eval_nodes ctx emb i constraints.nodes
    (constraints.constraint_idx.foldl (fun acc k => acc * alpha + vals.getD k 0) 0)
      / emb (trace_domain.zp_at (quotient_domain.point i))

/-- Modelled from the spec: the commitment primitive of the external PCS
collaborator together with the field constants the domain operations use;
stands for the SC::Pcs reference held by the committer. -/
structure PcsModel (F : Type) [Field F] (Com PD : Type) where
  twoAdic : TwoAdicParams F
  commitFn : List (Domain F × RowMajorMatrix F) → Com × PD

/-- The quotient committer: the PCS handle and the random combination
element alpha, as in QuotientCommitter of quotient/mod.rs. -/
structure QuotientCommitter (F C : Type) [Field F] (Com PD : Type) where
  pcs : PcsModel F Com PD
  alpha : C

/-- The quotient polynomial of a single RAP evaluated on its quotient
domain, tagged with the quotient degree, as in SingleQuotientData. -/
structure SingleQuotientData (F C : Type) where
  quotient_degree : Nat
  quotient_domain : Domain F
  quotient_values : List C
deriving DecidableEq

/-- The quotient polynomials of all RAPs of one call, as in QuotientData. -/
structure QuotientData (F C : Type) where
  inner : List (SingleQuotientData F C)
deriving DecidableEq

/-- One committed chunk: a sub-coset of a quotient domain together with the
base-field matrix of the quotient evaluations on it, as in QuotientChunk. -/
structure QuotientChunk (F : Type) where
  domain : Domain F
  chunk : RowMajorMatrix F
deriving DecidableEq

/-- The commitment opening context: the PCS prover data plus the recorded
per-chunk size exponents, as in the PcsData returned by commit. -/
structure PcsData (PD : Type) where
  data : PD
  log_trace_heights : List Nat
deriving DecidableEq

/-- Unzips the phase views of a trace view into interaction matrices,
challenge lists and exposed-value lists; the failure value models the
expect panic the Rust code raises for a phase whose committed matrix is
absent (message: gap in challenge phase not supported yet). -/
def unzip_phases {M C : Type} :
    List (PhaseView M C) → Option (List M × List (List C) × List (List C))
  | [] => some ([], [], [])
  | pv :: rest =>
      match pv.inner, unzip_phases rest with
      | some m, some (ms, cs, es) =>
          some (m :: ms, pv.challenges :: cs, pv.exposed_values :: es)
      | _, _ => none

/-- single_rap_quotient_values of quotient/mod.rs: derive the trace domain
from the view's log trace height, build the quotient domain as a disjoint
coset of trace size times quotient degree, unpack the phase views, and
run the per-system evaluator. -/
def single_rap_quotient_values {F C : Type} [Field F] [Field C] {Com PD : Type}
    (emb : F →+* C) (qc : QuotientCommitter F C Com PD)
    (constraints : SymbolicExpressionDag F)
    (view : RapView (RowMajorMatrix F) F C) (quotient_degree : Nat) :
    Except ProverError (SingleQuotientData F C) :=
  let log_trace_height := view.pair.log_trace_height
  let trace_domain := natural_domain_for_degree qc.pcs.twoAdic (2 ^ log_trace_height)
  let quotient_domain :=
    trace_domain.create_disjoint_domain qc.pcs.twoAdic
      (trace_domain.size * quotient_degree)
  match unzip_phases view.per_phase with
  | none => .error .gapInChallengePhase
  | some (after_challenge_lde_on_quotient_domain, challenges,
      exposed_values_after_challenge) =>
    .ok ⟨quotient_degree, quotient_domain,
      compute_single_rap_quotient_values emb constraints trace_domain
        quotient_domain view.pair.preprocessed view.pair.partitioned_main
        after_challenge_lde_on_quotient_domain challenges qc.alpha
        view.pair.public_values exposed_values_after_challenge⟩

/-- Zip of three lists into triples, truncating at the shortest. -/
def zip3 {α β γ : Type} : List α → List β → List γ → List (α × β × γ)
  | a :: as, b :: bs, c :: cs => (a, b, c) :: zip3 as bs cs
  | _, _, _ => []

/-- Effectful map over a list in the Except monad, stopping at the first
failure. -/
def mapMEx {ε α β : Type} (f : α → Except ε β) : List α → Except ε (List β)
  | [] => .ok []
  | a :: as =>
      match f a, mapMEx f as with
      | .ok b, .ok bs => .ok (b :: bs)
      | .error e, _ => .error e
      | .ok _, .error e => .error e

/-- Effectful map over a list in the Option monad, stopping at the first
failure. -/
def mapMOpt {α β : Type} (f : α → Option β) : List α → Option (List β)
  | [] => some []
  | a :: as =>
      match f a, mapMOpt f as with
      | some b, some bs => some (b :: bs)
      | _, _ => none

/-- quotient_values of quotient/mod.rs: the two assert_eq! length checks
followed by the per-RAP evaluation over the zipped inputs. -/
def quotient_values {F C : Type} [Field F] [Field C] {Com PD : Type}
    (emb : F →+* C) (qc : QuotientCommitter F C Com PD)
    (constraints : List (SymbolicExpressionDag F))
    (extended_views : List (RapView (RowMajorMatrix F) F C))
    (quotient_degrees : List Nat) : Except ProverError (QuotientData F C) :=
  if constraints.length ≠ extended_views.length then .error .lengthMismatch
  else if constraints.length ≠ quotient_degrees.length then .error .lengthMismatch
  else
    (mapMEx
      (fun t => single_rap_quotient_values emb qc t.1 t.2.1 t.2.2)
      (zip3 constraints extended_views quotient_degrees)).map
      (fun inner => ⟨inner⟩)

/-- SingleQuotientData::split: flatten the extension-field evaluation
vector to a base-field matrix, split the matrix rows and the quotient
domain into quotient_degree chunks, and pair them up. -/
def SingleQuotientData.split {F C : Type} [Field F] (P : TwoAdicParams F)
    (E : ExtParams F C) (data : SingleQuotientData F C) : List (QuotientChunk F) :=
  let quotient_degree := data.quotient_degree
  let quotient_domain := data.quotient_domain
  let quotient_flat :=
    (RowMajorMatrix.new_col data.quotient_values).flatten_to_base E
  let quotient_chunks := quotient_flat.split_evals quotient_degree
  let qc_domains := quotient_domain.split_domains P quotient_degree
  List.zipWith QuotientChunk.mk qc_domains quotient_chunks

/-- QuotientData::split: concatenation of the per-RAP chunk lists, in
order. -/
def QuotientData.split {F C : Type} [Field F] (P : TwoAdicParams F)
    (E : ExtParams F C) (data : QuotientData F C) : List (QuotientChunk F) :=
  data.inner.flatMap (fun d => d.split P E)

/-- commit of quotient/mod.rs: record, per chunk, log2 of its domain size
cast to u8 (failure models the log2_strict_usize panic on a size that is
not a power of two), and invoke the PCS commitment primitive once over
the concatenated (domain, matrix) pairs of all chunks. -/
def QuotientCommitter.commit {F C : Type} [Field F] [Field C] {Com PD : Type}
    (E : ExtParams F C) (qc : QuotientCommitter F C Com PD)
    (data : QuotientData F C) : Except ProverError (Com × PcsData PD) :=
  let chunks := data.split qc.pcs.twoAdic E
  match mapMOpt (fun q => (log2_strict_usize q.domain.size).map (· % 2 ^ 8)) chunks with
  | none => .error .log2StrictFailure
  | some log_trace_heights =>
      let quotient_domains_and_chunks := chunks.map fun q => (q.domain, q.chunk)
      let cd := qc.pcs.commitFn quotient_domains_and_chunks
      .ok (cd.1, ⟨cd.2, log_trace_heights⟩)

/-- The payload of a successful Except computation, or a default. -/
def okD {ε α : Type} (e : Except ε α) (d : α) : α :=
  match e with
  | .ok a => a
  | .error _ => d

/-- Whether an Except computation succeeded. -/
def isOkB {ε α : Type} : Except ε α → Bool
  | .ok _ => true
  | .error _ => false

instance : Fact (Nat.Prime 13) := ⟨by norm_num⟩

/-- Concrete two-adic parameters over the field with 13 elements (2-adicity
2, multiplicative generator 2), used to instantiate the generic theorems
on explicit inputs. -/
def P13 : TwoAdicParams (ZMod 13) where
  maxLog := 2
  rootOfLog := fun k => if k = 0 then 1 else if k = 1 then 12 else if k = 2 then 8 else 1
  mulGen := 2
  mulGen_ne_zero := by decide
  mulGen_two_pow_ne_one := by
    intro a
    have hcyc : ∀ b : Nat, 2 ^ b % 12 = 1 ∨ 2 ^ b % 12 = 2 ∨ 2 ^ b % 12 = 4 ∨ 2 ^ b % 12 = 8 := by
      intro b
      induction b with
      | zero => omega
      | succ b ih =>
          have hstep : 2 ^ (b + 1) % 12 = 2 * (2 ^ b % 12) % 12 := by
            rw [pow_succ, Nat.mul_comm, Nat.mul_mod]
          rcases ih with h | h | h | h <;> rw [hstep, h] <;> omega
    have h12 : (2 : ZMod 13) ^ 12 = 1 := by decide
    have hmod : (2 : ZMod 13) ^ 2 ^ a = (2 : ZMod 13) ^ (2 ^ a % 12) := by
      conv_lhs => rw [← Nat.div_add_mod (2 ^ a) 12]
      rw [pow_add, pow_mul, h12, one_pow, one_mul]
    rw [hmod]
    rcases hcyc a with h | h | h | h <;> rw [h] <;> decide
  root_pow := by
    intro k
    match k with
    | 0 => decide
    | 1 => decide
    | 2 => decide
    | k + 3 => simp
  root_inj := by
    intro k hk a h
    interval_cases k
    · exact Nat.one_dvd a
    · have h' : (12 : ZMod 13) ^ a = 1 := h
      have h2 : (12 : ZMod 13) ^ 2 = 1 := by decide
      have hmod : (12 : ZMod 13) ^ a = (12 : ZMod 13) ^ (a % 2) := by
        conv_lhs => rw [← Nat.div_add_mod a 2]
        rw [pow_add, pow_mul, h2, one_pow, one_mul]
      rw [hmod] at h'
      have hm : a % 2 = 0 ∨ a % 2 = 1 := by omega
      rcases hm with hm | hm
      · simpa [pow_succ] using Nat.dvd_of_mod_eq_zero hm
      · rw [hm] at h'; exact absurd h' (by decide)
    · have h' : (8 : ZMod 13) ^ a = 1 := h
      have h4 : (8 : ZMod 13) ^ 4 = 1 := by decide
      have hmod : (8 : ZMod 13) ^ a = (8 : ZMod 13) ^ (a % 4) := by
        conv_lhs => rw [← Nat.div_add_mod a 4]
        rw [pow_add, pow_mul, h4, one_pow, one_mul]
      rw [hmod] at h'
      have hm : a % 4 = 0 ∨ a % 4 = 1 ∨ a % 4 = 2 ∨ a % 4 = 3 := by omega
      rcases hm with hm | hm | hm | hm
      · have hdvd : (4 : Nat) ∣ a := Nat.dvd_of_mod_eq_zero hm
        simpa [show (2 : Nat) ^ 2 = 4 by norm_num] using hdvd
      all_goals rw [hm] at h'; exact absurd h' (by decide)
  root_compat := by
    intro j k h
    have hj : j ≤ 2 := by omega
    have hk2 : k ≤ 2 := by omega
    interval_cases j <;> interval_cases k <;>
      first
      | decide
      | exact absurd h (by norm_num)

/-- Concrete degree-1 extension structure (base field as its own
extension), for instantiating the generic theorems. -/
def E13 : ExtParams (ZMod 13) (ZMod 13) where
  dDeg := 1
  dDeg_pos := Nat.one_pos
  toCoeffs := fun c => [c]
  toCoeffs_length := fun _ => rfl

/-- Concrete trivial commitment primitive for instantiation. -/
def pcs13 : PcsModel (ZMod 13) Unit Unit where
  twoAdic := P13
  commitFn := fun _ => ((), ())

/-- Concrete quotient committer over the field with 13 elements. -/
def qc13 : QuotientCommitter (ZMod 13) (ZMod 13) Unit Unit where
  pcs := pcs13
  alpha := 3

/-- Identity embedding of the base field into the (trivial) extension. -/
def emb13 : ZMod 13 →+* ZMod 13 := RingHom.id (ZMod 13)

/-- Empty constraint system over the field with 13 elements. -/
def dag0 : SymbolicExpressionDag (ZMod 13) := ⟨[], []⟩

/-- A three-node constraint system: a constant, a trace cell, and their
sum as the single declared constraint. -/
def dagC4 : SymbolicExpressionDag (ZMod 13) :=
  ⟨[.constant 1, .traceCell 0 0 0, .add 0 1], [2]⟩

/-- A trace view of log height 1 with no interaction phase. -/
def view0 : RapView (RowMajorMatrix (ZMod 13)) (ZMod 13) (ZMod 13) :=
  ⟨⟨1, none, [], []⟩, []⟩

/-- A trace view whose phase list is a single phase without a committed
matrix: a trailing suffix of empty phases with every earlier phase
(vacuously) committed. -/
def viewGap : RapView (RowMajorMatrix (ZMod 13)) (ZMod 13) (ZMod 13) :=
  ⟨⟨1, none, [], []⟩, [⟨none, [], []⟩]⟩

/-- A trace view of log height 1 with one fully committed phase. -/
def viewFull : RapView (RowMajorMatrix (ZMod 13)) (ZMod 13) (ZMod 13) :=
  ⟨⟨1, none, [⟨[0, 0, 0, 0], 1⟩], []⟩, [⟨some ⟨[0, 0, 0, 0], 1⟩, [5], [6]⟩]⟩

/-- Default single-system result, used as the fallback value of okD. -/
def default_single {F C : Type} [Field F] : SingleQuotientData F C :=
  ⟨0, ⟨0, 1, 1⟩, []⟩

/-- Default multi-system result, used as the fallback value of okD. -/
def default_qdata {F C : Type} : QuotientData F C := ⟨[]⟩

/-- Default (empty) constraint system, used as a getD fallback. -/
def default_dag {F : Type} : SymbolicExpressionDag F := ⟨[], []⟩

/-- Default (empty) trace view, used as a getD fallback. -/
def default_view {F C : Type} : RapView (RowMajorMatrix F) F C :=
  ⟨⟨0, none, [], []⟩, []⟩

lemma log2_fuel_pow : ∀ (k f : Nat), 2 ^ k ≤ f → log2_fuel f (2 ^ k) = k := by
  intro k
  induction k with
  | zero =>
      intro f hf
      match f, hf with
      | f + 1, _ => simp [log2_fuel]
  | succ k ih =>
      intro f hf
      have h2 : 2 ≤ 2 ^ (k + 1) := by
        calc 2 = 2 ^ 1 := (pow_one 2).symm
        _ ≤ 2 ^ (k + 1) := Nat.pow_le_pow_right (by omega) (by omega)
      match f, Nat.lt_of_lt_of_le (by omega : 0 < 2 ^ (k+1)) hf with
      | f + 1, _ =>
        have hne : ¬ 2 ^ (k + 1) ≤ 1 := by omega
        have hdiv : 2 ^ (k + 1) / 2 = 2 ^ k := by
          rw [pow_succ, Nat.mul_div_cancel _ (by omega)]
        have hf' : 2 ^ k ≤ f := by
          have : 2 ^ k < 2 ^ (k + 1) := Nat.pow_lt_pow_right (by omega) (by omega)
          omega
        simp only [log2_fuel, if_neg hne, hdiv, ih f hf']
        omega

lemma nat_log2_pow (k : Nat) : nat_log2 (2 ^ k) = k :=
  log2_fuel_pow k (2 ^ k) le_rfl

lemma clog2_fuel_pow : ∀ (k f : Nat), 2 ^ k ≤ f → clog2_fuel f (2 ^ k) = k := by
  intro k
  induction k with
  | zero =>
      intro f hf
      match f, hf with
      | f + 1, _ => simp [clog2_fuel]
  | succ k ih =>
      intro f hf
      have h2 : 2 ≤ 2 ^ (k + 1) := by
        calc 2 = 2 ^ 1 := (pow_one 2).symm
        _ ≤ 2 ^ (k + 1) := Nat.pow_le_pow_right (by omega) (by omega)
      match f, Nat.lt_of_lt_of_le (by omega : 0 < 2 ^ (k+1)) hf with
      | f + 1, _ =>
        have hne : ¬ 2 ^ (k + 1) ≤ 1 := by omega
        have hdiv : (2 ^ (k + 1) + 1) / 2 = 2 ^ k := by
          have : 2 ^ (k + 1) = 2 * 2 ^ k := by rw [pow_succ]; ring
          omega
        have hf' : 2 ^ k ≤ f := by
          have : 2 ^ k < 2 ^ (k + 1) := Nat.pow_lt_pow_right (by omega) (by omega)
          omega
        simp only [clog2_fuel, if_neg hne, hdiv, ih f hf']
        omega

lemma nat_clog2_pow (k : Nat) : nat_clog2 (2 ^ k) = k :=
  clog2_fuel_pow k (2 ^ k) le_rfl

lemma log2_strict_usize_pow (k : Nat) : log2_strict_usize (2 ^ k) = some k := by
  simp [log2_strict_usize, nat_log2_pow]

lemma pow_mod_of_pow_eq_one {M : Type} [Monoid M] (x : M) (n : Nat)
    (h : x ^ n = 1) (a : Nat) : x ^ a = x ^ (a % n) := by
  conv_lhs => rw [← Nat.div_add_mod a n]
  rw [pow_add, pow_mul, h, one_pow, one_mul]

lemma root_ne_zero {F : Type} [Field F] (P : TwoAdicParams F) (k : Nat) :
    P.rootOfLog k ≠ 0 := by
  intro h0
  have h := P.root_pow k
  rw [h0, zero_pow (by positivity)] at h
  exact zero_ne_one h

lemma natural_domain_size {F : Type} [Field F] (P : TwoAdicParams F) (k : Nat) :
    (natural_domain_for_degree P (2 ^ k)).size = 2 ^ k := by
  simp [natural_domain_for_degree, Domain.size, nat_log2_pow]

lemma zip3_length_eq {α β γ : Type} :
    ∀ (as : List α) (bs : List β) (cs : List γ),
      as.length = bs.length → as.length = cs.length →
      (zip3 as bs cs).length = as.length := by
  intro as
  induction as with
  | nil => intro bs cs _ _; simp [zip3]
  | cons a as ih =>
      intro bs cs h1 h2
      match bs, cs with
      | b :: bs, c :: cs =>
          simp only [zip3, List.length_cons]
          rw [ih bs cs (by simpa using h1) (by simpa using h2)]

lemma zip3_getElem {α β γ : Type} :
    ∀ (as : List α) (bs : List β) (cs : List γ) (i : Nat)
      (h1 : i < as.length) (h2 : i < bs.length) (h3 : i < cs.length)
      (h : i < (zip3 as bs cs).length),
      (zip3 as bs cs)[i] = (as[i], bs[i], cs[i]) := by
  intro as
  induction as with
  | nil => intro bs cs i h1; simp at h1
  | cons a as ih =>
      intro bs cs i h1 h2 h3 h
      match bs, cs with
      | b :: bs, c :: cs =>
          match i with
          | 0 => simp [zip3]
          | i + 1 =>
              simp only [zip3, List.getElem_cons_succ]
              exact ih bs cs i (by simpa using h1) (by simpa using h2)
                (by simpa using h3) (by simpa [zip3] using h)

lemma mapMEx_ok_length {ε α β : Type} (f : α → Except ε β) :
    ∀ (xs : List α) (ys : List β), mapMEx f xs = .ok ys →
      ys.length = xs.length := by
  intro xs
  induction xs with
  | nil => intro ys h; simp only [mapMEx] at h; cases h; rfl
  | cons a as ih =>
      intro ys h
      simp only [mapMEx] at h
      cases hfa : f a with
      | error e => rw [hfa] at h; cases h
      | ok b =>
          rw [hfa] at h
          cases hrest : mapMEx f as with
          | error e => rw [hrest] at h; cases h
          | ok bs =>
              rw [hrest] at h
              cases h
              simp [ih bs hrest]

lemma mapMEx_ok_getElem {ε α β : Type} (f : α → Except ε β) :
    ∀ (xs : List α) (ys : List β), mapMEx f xs = .ok ys →
      ∀ (i : Nat) (h1 : i < xs.length) (h2 : i < ys.length),
        f xs[i] = .ok ys[i] := by
  intro xs
  induction xs with
  | nil => intro ys _ i h1; simp at h1
  | cons a as ih =>
      intro ys h i h1 h2
      simp only [mapMEx] at h
      cases hfa : f a with
      | error e => rw [hfa] at h; cases h
      | ok b =>
          rw [hfa] at h
          cases hrest : mapMEx f as with
          | error e => rw [hrest] at h; cases h
          | ok bs =>
              rw [hrest] at h
              cases h
              match i with
              | 0 => simpa using hfa
              | i + 1 =>
                  exact ih bs hrest i (by simpa using h1) (by simpa using h2)

lemma unzip_phases_none_iff {M C : Type} :
    ∀ (l : List (PhaseView M C)),
      unzip_phases l = none ↔ ∃ pv ∈ l, pv.inner = none := by
  intro l
  induction l with
  | nil => simp [unzip_phases]
  | cons pv rest ih =>
      cases hpv : pv.inner with
      | none =>
          simp only [unzip_phases, hpv]
          constructor
          · intro _; exact ⟨pv, by simp, hpv⟩
          · intro _; trivial
      | some m =>
          cases hrest : unzip_phases rest with
          | none =>
              simp only [unzip_phases, hpv, hrest]
              constructor
              · intro _
                obtain ⟨pv', hmem, hnone⟩ := (ih).mp hrest
                exact ⟨pv', by simp [hmem], hnone⟩
              · intro _; trivial
          | some triple =>
              obtain ⟨ms, cs, es⟩ := triple
              simp only [unzip_phases, hpv, hrest]
              constructor
              · intro h; cases h
              · rintro ⟨pv', hmem, hnone⟩
                rcases List.mem_cons.mp hmem with heq | hmem'
                · rw [heq] at hnone; rw [hpv] at hnone; cases hnone
                · exact absurd ((ih).mpr ⟨pv', hmem', hnone⟩) (by simp [hrest])

lemma compute_single_length {F C : Type} [Field F] [Field C] (emb : F →+* C)
    (dag : SymbolicExpressionDag F) (t q : Domain F)
    (pre : Option (RowMajorMatrix F)) (main ac : List (RowMajorMatrix F))
    (ch : List (List C)) (alpha : C) (pub : List F) (ex : List (List C)) :
    (compute_single_rap_quotient_values emb dag t q pre main ac ch alpha pub ex).length
      = q.size := by
  simp [compute_single_rap_quotient_values]

lemma single_rap_ok {F C : Type} [Field F] [Field C] {Com PD : Type}
    (emb : F →+* C) (qc : QuotientCommitter F C Com PD)
    (dag : SymbolicExpressionDag F) (view : RapView (RowMajorMatrix F) F C)
    (qd : Nat) (data : SingleQuotientData F C)
    (h : single_rap_quotient_values emb qc dag view qd = .ok data) :
    ∃ ms chs exs,
      unzip_phases view.per_phase = some (ms, chs, exs) ∧
      data =
        ⟨qd,
          (natural_domain_for_degree qc.pcs.twoAdic
              (2 ^ view.pair.log_trace_height)).create_disjoint_domain
            qc.pcs.twoAdic
            ((natural_domain_for_degree qc.pcs.twoAdic
                (2 ^ view.pair.log_trace_height)).size * qd),
          compute_single_rap_quotient_values emb dag
            (natural_domain_for_degree qc.pcs.twoAdic
              (2 ^ view.pair.log_trace_height))
            ((natural_domain_for_degree qc.pcs.twoAdic
                (2 ^ view.pair.log_trace_height)).create_disjoint_domain
              qc.pcs.twoAdic
              ((natural_domain_for_degree qc.pcs.twoAdic
                  (2 ^ view.pair.log_trace_height)).size * qd))
            view.pair.preprocessed view.pair.partitioned_main ms chs qc.alpha
            view.pair.public_values exs⟩ := by
  simp only [single_rap_quotient_values] at h
  cases hu : unzip_phases view.per_phase with
  | none => rw [hu] at h; cases h
  | some triple =>
      obtain ⟨ms, chs, exs⟩ := triple
      rw [hu] at h
      cases h
      exact ⟨ms, chs, exs, rfl, rfl⟩

lemma single_rap_isOk_iff {F C : Type} [Field F] [Field C] {Com PD : Type}
    (emb : F →+* C) (qc : QuotientCommitter F C Com PD)
    (dag : SymbolicExpressionDag F) (view : RapView (RowMajorMatrix F) F C)
    (qd : Nat) :
    isOkB (single_rap_quotient_values emb qc dag view qd) = true ↔
      unzip_phases view.per_phase ≠ none := by
  simp only [single_rap_quotient_values]
  cases hu : unzip_phases view.per_phase with
  | none => simp [isOkB]
  | some triple =>
      obtain ⟨ms, chs, exs⟩ := triple
      simp [isOkB]

lemma quotient_values_ok {F C : Type} [Field F] [Field C] {Com PD : Type}
    (emb : F →+* C) (qc : QuotientCommitter F C Com PD)
    (cs : List (SymbolicExpressionDag F))
    (views : List (RapView (RowMajorMatrix F) F C)) (qds : List Nat)
    (data : QuotientData F C)
    (h : quotient_values emb qc cs views qds = .ok data) :
    cs.length = views.length ∧ cs.length = qds.length ∧
      data.inner.length = cs.length ∧
      ∀ (i : Nat) (h1 : i < cs.length) (h2 : i < views.length)
        (h3 : i < qds.length) (h4 : i < data.inner.length),
        single_rap_quotient_values emb qc (cs.get ⟨i, h1⟩)
            (views.get ⟨i, h2⟩) (qds.get ⟨i, h3⟩)
          = .ok (data.inner.get ⟨i, h4⟩) := by
  simp only [quotient_values] at h
  by_cases h1 : cs.length = views.length
  · by_cases h2 : cs.length = qds.length
    · rw [if_neg (by omega), if_neg (by omega)] at h
      cases hm : mapMEx
          (fun t => single_rap_quotient_values emb qc t.1 t.2.1 t.2.2)
          (zip3 cs views qds) with
      | error e => rw [hm] at h; simp [Except.map] at h
      | ok ys =>
          rw [hm] at h
          simp only [Except.map] at h
          cases h
          have hzl : (zip3 cs views qds).length = cs.length :=
            zip3_length_eq cs views qds h1 h2
          have hyl : ys.length = cs.length := by
            rw [mapMEx_ok_length _ _ _ hm, hzl]
          refine ⟨h1, h2, hyl, ?_⟩
          intro i hi hv hq hd
          have hz : i < (zip3 cs views qds).length := by omega
          have := mapMEx_ok_getElem _ _ _ hm i hz (by omega)
          rw [zip3_getElem cs views qds i (by omega) hv hq hz] at this
          simpa using this
    · rw [if_neg (by omega), if_pos (by omega)] at h
      cases h
  · rw [if_pos (by omega)] at h
    cases h

lemma pow_sub_eq_one_of_pow_eq {F : Type} [Field F] (x : F) (hx : x ≠ 0)
    {a b : Nat} (hab : b ≤ a) (h : x ^ a = x ^ b) : x ^ (a - b) = 1 := by
  have hb : x ^ b ≠ 0 := pow_ne_zero b hx
  have h2 : x ^ b * x ^ (a - b) = x ^ b * 1 := by
    rw [mul_one, ← pow_add]
    rw [Nat.add_sub_cancel' hab]
    exact h
  exact mul_left_cancel₀ hb h2

lemma root_pow_mod_eq {F : Type} [Field F] (P : TwoAdicParams F) (m : Nat)
    (hm : m ≤ P.maxLog) (a b : Nat)
    (h : P.rootOfLog m ^ a = P.rootOfLog m ^ b) :
    a % 2 ^ m = b % 2 ^ m := by
  have hμ : P.rootOfLog m ≠ 0 := root_ne_zero P m
  rcases le_total b a with hba | hab
  · have h1 : P.rootOfLog m ^ (a - b) = 1 :=
      pow_sub_eq_one_of_pow_eq _ hμ hba h
    have hdvd : 2 ^ m ∣ a - b := P.root_inj m hm (a - b) h1
    exact ((Nat.modEq_iff_dvd' hba).mpr hdvd).symm
  · have h1 : P.rootOfLog m ^ (b - a) = 1 :=
      pow_sub_eq_one_of_pow_eq _ hμ hab h.symm
    have hdvd : 2 ^ m ∣ b - a := P.root_inj m hm (b - a) h1
    exact (Nat.modEq_iff_dvd' hab).mpr hdvd

lemma zp_at_create_disjoint_ne_zero {F : Type} [Field F] (P : TwoAdicParams F)
    (k minSize i : Nat) :
    (natural_domain_for_degree P (2 ^ k)).zp_at
      (((natural_domain_for_degree P (2 ^ k)).create_disjoint_domain P
          minSize).point i) ≠ 0 := by
  intro h0
  simp only [Domain.zp_at, Domain.point, Domain.size, Domain.create_disjoint_domain,
    natural_domain_for_degree] at h0
  rw [div_one] at h0
  have hx := sub_eq_zero.mp h0
  set K := nat_log2 (2 ^ k) with hK
  set m := nat_clog2 minSize with hm
  set g := P.mulGen with hg
  set μ := P.rootOfLog m with hμdef
  have hkey : g ^ (2 ^ K * 2 ^ m) = 1 := by
    have h2 : ((1 : F) * g * μ ^ i) ^ (2 ^ K * 2 ^ m) = 1 := by
      rw [pow_mul, hx, one_pow]
    rw [one_mul, mul_pow, ← pow_mul] at h2
    have hμ1 : μ ^ (i * (2 ^ K * 2 ^ m)) = 1 := by
      have harr : i * (2 ^ K * 2 ^ m) = 2 ^ m * (i * 2 ^ K) := by ring
      rw [harr, pow_mul, hμdef, P.root_pow m, one_pow]
    rw [hμ1, mul_one] at h2
    exact h2
  exact P.mulGen_two_pow_ne_one (K + m) (by rw [pow_add]; exact hkey)

lemma split_domains_length {F : Type} [Field F] (P : TwoAdicParams F)
    (d : Domain F) (k : Nat) : (d.split_domains P k).length = k := by
  simp [Domain.split_domains]

lemma split_domains_get {F : Type} [Field F] (P : TwoAdicParams F)
    (d : Domain F) (k i : Nat) (hi : i < (d.split_domains P k).length) :
    (d.split_domains P k).get ⟨i, hi⟩ =
      ⟨d.logN - nat_log2 k, d.shift * d.gen ^ i,
        P.rootOfLog (d.logN - nat_log2 k)⟩ := by
  simp [Domain.split_domains]

lemma split_sub_point {F : Type} [Field F] (P : TwoAdicParams F)
    (m e : Nat) (s : F) (he : e ≤ m) (hmax : m ≤ P.maxLog) (i r : Nat) :
    Domain.point ⟨m - e, s * P.rootOfLog m ^ i, P.rootOfLog (m - e)⟩ r
      = s * P.rootOfLog m ^ (i + 2 ^ e * r) := by
  simp only [Domain.point]
  have hcompat : P.rootOfLog (m - e) = P.rootOfLog m ^ 2 ^ e := by
    have h := P.root_compat (m - e) e (by omega)
    rwa [Nat.sub_add_cancel he] at h
  rw [hcompat, ← pow_mul, mul_assoc, ← pow_add]

lemma split_sub_disjoint {F : Type} [Field F] (P : TwoAdicParams F)
    (m e : Nat) (s : F) (hs : s ≠ 0) (he : e ≤ m) (hmax : m ≤ P.maxLog)
    (i j : Nat) (hi : i < 2 ^ e) (hj : j < 2 ^ e) (hne : i ≠ j) (x : F) :
    ¬ (Domain.mem_pt ⟨m - e, s * P.rootOfLog m ^ i, P.rootOfLog (m - e)⟩ x ∧
        Domain.mem_pt ⟨m - e, s * P.rootOfLog m ^ j, P.rootOfLog (m - e)⟩ x) := by
  rintro ⟨⟨r, hr, hxr⟩, ⟨r', hr', hxr'⟩⟩
  rw [split_sub_point P m e s he hmax i r] at hxr
  rw [split_sub_point P m e s he hmax j r'] at hxr'
  have heq : s * P.rootOfLog m ^ (i + 2 ^ e * r)
      = s * P.rootOfLog m ^ (j + 2 ^ e * r') := by rw [← hxr, ← hxr']
  have heq2 : P.rootOfLog m ^ (i + 2 ^ e * r)
      = P.rootOfLog m ^ (j + 2 ^ e * r') := mul_left_cancel₀ hs heq
  have hmod : (i + 2 ^ e * r) % 2 ^ m = (j + 2 ^ e * r') % 2 ^ m :=
    root_pow_mod_eq P m hmax _ _ heq2
  have hdvd : (2 : Nat) ^ e ∣ 2 ^ m := pow_dvd_pow 2 he
  have hmode : (i + 2 ^ e * r) % 2 ^ e = (j + 2 ^ e * r') % 2 ^ e := by
    calc (i + 2 ^ e * r) % 2 ^ e
        = (i + 2 ^ e * r) % 2 ^ m % 2 ^ e := (Nat.mod_mod_of_dvd _ hdvd).symm
      _ = (j + 2 ^ e * r') % 2 ^ m % 2 ^ e := by rw [hmod]
      _ = (j + 2 ^ e * r') % 2 ^ e := Nat.mod_mod_of_dvd _ hdvd
  rw [Nat.add_mul_mod_self_left, Nat.add_mul_mod_self_left,
    Nat.mod_eq_of_lt hi, Nat.mod_eq_of_lt hj] at hmode
  exact hne hmode

lemma split_cover {F : Type} [Field F] (P : TwoAdicParams F)
    (m e : Nat) (s : F) (he : e ≤ m) (hmax : m ≤ P.maxLog) (x : F) :
    Domain.mem_pt ⟨m, s, P.rootOfLog m⟩ x ↔
      ∃ i, i < 2 ^ e ∧
        Domain.mem_pt ⟨m - e, s * P.rootOfLog m ^ i, P.rootOfLog (m - e)⟩ x := by
  have hsz : (⟨m - e, s * P.rootOfLog m ^ 0, P.rootOfLog (m - e)⟩ : Domain F).size
      = 2 ^ (m - e) := rfl
  have hpows : (2 : Nat) ^ e * 2 ^ (m - e) = 2 ^ m := by
    rw [← pow_add, Nat.add_sub_cancel' he]
  constructor
  · rintro ⟨t, ht, hxt⟩
    refine ⟨t % 2 ^ e, Nat.mod_lt t (by positivity), t / 2 ^ e, ?_, ?_⟩
    · show t / 2 ^ e < 2 ^ (m - e)
      rw [Nat.div_lt_iff_lt_mul (by positivity)]
      calc t < 2 ^ m := ht
        _ = 2 ^ (m - e) * 2 ^ e := by rw [← pow_add, Nat.sub_add_cancel he]
    · rw [split_sub_point P m e s he hmax]
      rw [Nat.mod_add_div t (2 ^ e)]
      exact hxt
  · rintro ⟨i, hie, r, hr, hxr⟩
    rw [split_sub_point P m e s he hmax] at hxr
    refine ⟨i + 2 ^ e * r, ?_, hxr⟩
    show i + 2 ^ e * r < 2 ^ m
    have hr' : r < 2 ^ (m - e) := hr
    have hb : i + 2 ^ e * r + 1 ≤ 2 ^ m := by
      calc i + 2 ^ e * r + 1 ≤ 2 ^ e + 2 ^ e * r := by omega
        _ = 2 ^ e * (r + 1) := by ring
        _ ≤ 2 ^ e * 2 ^ (m - e) := Nat.mul_le_mul_left _ (by omega)
        _ = 2 ^ m := hpows
    omega

lemma getD_map_range {γ : Type} (f : Nat → γ) (t l : Nat) (d : γ) (hl : l < t) :
    (((List.range t).map f).getD l d) = f l := by
  rw [List.getD_eq_getElem?_getD, List.getElem?_map, List.getElem?_range hl]
  rfl

lemma eval_rec_fuel_irrel {F C : Type} [Field F] [Field C] (ctx : EvalCtx F C)
    (emb : F →+* C) (i : Nat) (nodes : List (SymbolicNode F))
    (hwf : dag_wf nodes) :
    ∀ (j f f' : Nat), j < f → j < f' →
      eval_rec_fuel ctx emb i nodes f j = eval_rec_fuel ctx emb i nodes f' j := by
  intro j
  induction j using Nat.strong_induction_on with
  | _ j ih =>
    intro f f' hf hf'
    match f, f' with
    | f + 1, f' + 1 =>
      have hchild : ∀ c ∈ node_children (nodes.getD j (.publicValue 0)), c < j := by
        by_cases hlen : j < nodes.length
        · exact hwf j hlen
        · intro c hc
          rw [List.getD_eq_default _ _ (by omega)] at hc
          simp [node_children] at hc
      simp only [eval_rec_fuel]
      cases hnode : nodes.getD j (.publicValue 0) with
      | add l r =>
          have hl : l < j := hchild l (by rw [hnode]; simp [node_children])
          have hr : r < j := hchild r (by rw [hnode]; simp [node_children])
          dsimp only
          rw [ih l hl f f' (by omega) (by omega), ih r hr f f' (by omega) (by omega)]
      | sub l r =>
          have hl : l < j := hchild l (by rw [hnode]; simp [node_children])
          have hr : r < j := hchild r (by rw [hnode]; simp [node_children])
          dsimp only
          rw [ih l hl f f' (by omega) (by omega), ih r hr f f' (by omega) (by omega)]
      | mul l r =>
          have hl : l < j := hchild l (by rw [hnode]; simp [node_children])
          have hr : r < j := hchild r (by rw [hnode]; simp [node_children])
          dsimp only
          rw [ih l hl f f' (by omega) (by omega), ih r hr f f' (by omega) (by omega)]
      | neg xx =>
          have hx : xx < j := hchild xx (by rw [hnode]; simp [node_children])
          dsimp only
          rw [ih xx hx f f' (by omega) (by omega)]
      | constant c => rfl
      | traceCell part col off => rfl
      | preprocessedCell col off => rfl
      | permutationCell phase col off => rfl
      | publicValue idx => rfl
      | challengeVar phase idx => rfl
      | exposedVar phase idx => rfl

lemma eval_node_rec_step {F C : Type} [Field F] [Field C] (ctx : EvalCtx F C)
    (emb : F →+* C) (i : Nat) (nodes : List (SymbolicNode F))
    (hwf : dag_wf nodes) (t : Nat) :
    eval_node_rec ctx emb i nodes t
      = eval_node ctx emb i
          ((List.range t).map (eval_node_rec ctx emb i nodes))
          (nodes.getD t (.publicValue 0)) := by
  have hchild : ∀ c ∈ node_children (nodes.getD t (.publicValue 0)), c < t := by
    by_cases hlen : t < nodes.length
    · exact hwf t hlen
    · intro c hc
      rw [List.getD_eq_default _ _ (by omega)] at hc
      simp [node_children] at hc
  show eval_rec_fuel ctx emb i nodes (t + 1) t = _
  simp only [eval_rec_fuel]
  cases hnode : nodes.getD t (.publicValue 0) with
  | add l r =>
      have hl : l < t := hchild l (by rw [hnode]; simp [node_children])
      have hr : r < t := hchild r (by rw [hnode]; simp [node_children])
      dsimp only
      simp only [eval_node]
      rw [getD_map_range _ _ _ _ hl, getD_map_range _ _ _ _ hr]
      rw [eval_rec_fuel_irrel ctx emb i nodes hwf l t (l + 1) (by omega) (by omega),
        eval_rec_fuel_irrel ctx emb i nodes hwf r t (r + 1) (by omega) (by omega)]
      rfl
  | sub l r =>
      have hl : l < t := hchild l (by rw [hnode]; simp [node_children])
      have hr : r < t := hchild r (by rw [hnode]; simp [node_children])
      dsimp only
      simp only [eval_node]
      rw [getD_map_range _ _ _ _ hl, getD_map_range _ _ _ _ hr]
      rw [eval_rec_fuel_irrel ctx emb i nodes hwf l t (l + 1) (by omega) (by omega),
        eval_rec_fuel_irrel ctx emb i nodes hwf r t (r + 1) (by omega) (by omega)]
      rfl
  | mul l r =>
      have hl : l < t := hchild l (by rw [hnode]; simp [node_children])
      have hr : r < t := hchild r (by rw [hnode]; simp [node_children])
      dsimp only
      simp only [eval_node]
      rw [getD_map_range _ _ _ _ hl, getD_map_range _ _ _ _ hr]
      rw [eval_rec_fuel_irrel ctx emb i nodes hwf l t (l + 1) (by omega) (by omega),
        eval_rec_fuel_irrel ctx emb i nodes hwf r t (r + 1) (by omega) (by omega)]
      rfl
  | neg xx =>
      have hx : xx < t := hchild xx (by rw [hnode]; simp [node_children])
      dsimp only
      simp only [eval_node]
      rw [getD_map_range _ _ _ _ hx]
      rw [eval_rec_fuel_irrel ctx emb i nodes hwf xx t (xx + 1) (by omega) (by omega)]
      rfl
  | constant c => rfl
  | traceCell part col off => rfl
  | preprocessedCell col off => rfl
  | permutationCell phase col off => rfl
  | publicValue idx => rfl
  | challengeVar phase idx => rfl
  | exposedVar phase idx => rfl

lemma eval_nodes_from_spec {F C : Type} [Field F] [Field C] (ctx : EvalCtx F C)
    (emb : F →+* C) (i : Nat) (nodes : List (SymbolicNode F))
    (hwf : dag_wf nodes) :
    ∀ (d t : Nat), nodes.length - t = d → t ≤ nodes.length →
      eval_nodes_from ctx emb i
          ((List.range t).map (eval_node_rec ctx emb i nodes)) (nodes.drop t)
        = (List.range nodes.length).map (eval_node_rec ctx emb i nodes) := by
  intro d
  induction d with
  | zero =>
      intro t hd ht
      have ht' : t = nodes.length := by omega
      subst ht'
      rw [List.drop_length]
      rfl
  | succ d ihd =>
      intro t hd ht
      have hlt : t < nodes.length := by omega
      rw [List.drop_eq_getElem_cons hlt]
      show eval_nodes_from ctx emb i _ (_ :: _) = _
      rw [eval_nodes_from]
      have hstep : eval_node ctx emb i
          ((List.range t).map (eval_node_rec ctx emb i nodes)) nodes[t]
          = eval_node_rec ctx emb i nodes t := by
        rw [eval_node_rec_step ctx emb i nodes hwf t]
        congr 1
        rw [List.getD_eq_getElem _ _ hlt]
      rw [hstep]
      have hsnoc : (List.range t).map (eval_node_rec ctx emb i nodes)
            ++ [eval_node_rec ctx emb i nodes t]
          = (List.range (t + 1)).map (eval_node_rec ctx emb i nodes) := by
        rw [List.range_succ, List.map_append]
        rfl
      rw [hsnoc]
      exact ihd (t + 1) (by omega) (by omega)

lemma eval_nodes_spec {F C : Type} [Field F] [Field C] (ctx : EvalCtx F C)
    (emb : F →+* C) (i : Nat) (nodes : List (SymbolicNode F))
    (hwf : dag_wf nodes) :
    eval_nodes ctx emb i nodes
      = (List.range nodes.length).map (eval_node_rec ctx emb i nodes) := by
  have h := eval_nodes_from_spec ctx emb i nodes hwf (nodes.length - 0) 0 rfl
    (Nat.zero_le _)
  simpa [eval_nodes] using h

lemma eval_nodes_getD {F C : Type} [Field F] [Field C] (ctx : EvalCtx F C)
    (emb : F →+* C) (i : Nat) (nodes : List (SymbolicNode F))
    (hwf : dag_wf nodes) (k : Nat) (hk : k < nodes.length) :
    (eval_nodes ctx emb i nodes).getD k 0 = eval_node_rec ctx emb i nodes k := by
  rw [eval_nodes_spec ctx emb i nodes hwf, getD_map_range _ _ _ _ hk]

lemma length_flatMap_const {α β : Type} (f : α → List β) (D : Nat)
    (hf : ∀ a, (f a).length = D) :
    ∀ l : List α, (l.flatMap f).length = l.length * D := by
  intro l
  induction l with
  | nil => simp
  | cons a as ih =>
      rw [List.flatMap_cons, List.length_append, hf a, ih]
      simp [Nat.succ_mul]
      omega

lemma length_flatten_map_range {β : Type} (g : Nat → List β) (D : Nat) :
    ∀ n : Nat, (∀ r, r < n → (g r).length = D) →
      (((List.range n).map g).flatten).length = n * D := by
  intro n
  induction n with
  | zero => intro _; simp
  | succ n ih =>
      intro hg
      rw [List.range_succ, List.map_append, List.flatten_append]
      rw [List.length_append, ih (fun r hr => hg r (by omega))]
      simp [hg n (by omega), Nat.succ_mul]

lemma row_length {α : Type} (m : RowMajorMatrix α) (j : Nat)
    (h : (j + 1) * m.width ≤ m.values.length) :
    (m.row j).length = m.width := by
  simp only [RowMajorMatrix.row, List.length_take, List.length_drop]
  have : (j + 1) * m.width = j * m.width + m.width := by ring
  omega

lemma flatten_new_col_dims {F C : Type} (E : ExtParams F C) (vals : List C) :
    ((RowMajorMatrix.new_col vals).flatten_to_base E).width = E.dDeg ∧
      ((RowMajorMatrix.new_col vals).flatten_to_base E).values.length
        = vals.length * E.dDeg ∧
      ((RowMajorMatrix.new_col vals).flatten_to_base E).height = vals.length := by
  refine ⟨Nat.one_mul _, ?_, ?_⟩
  · exact length_flatMap_const E.toCoeffs E.dDeg E.toCoeffs_length vals
  · simp only [RowMajorMatrix.height, RowMajorMatrix.flatten_to_base,
      RowMajorMatrix.new_col]
    rw [length_flatMap_const E.toCoeffs E.dDeg E.toCoeffs_length vals, Nat.one_mul,
      Nat.mul_div_cancel _ E.dDeg_pos]

lemma split_evals_length {α : Type} (m : RowMajorMatrix α) (k : Nat) :
    (m.split_evals k).length = k := by
  simp [RowMajorMatrix.split_evals]

lemma split_evals_get_spec {α : Type} (m : RowMajorMatrix α) (k i : Nat)
    (hw : 0 < m.width) (hexact : m.values.length = m.height * m.width)
    (hdvd : k ∣ m.height) (h : i < (m.split_evals k).length) :
    ((m.split_evals k).get ⟨i, h⟩).width = m.width ∧
      ((m.split_evals k).get ⟨i, h⟩).height = m.height / k := by
  have hik : i < k := by
    have := split_evals_length m k
    omega
  have hget : (m.split_evals k).get ⟨i, h⟩ =
      ⟨((List.range (m.height / k)).map fun r =>
          m.row (r * k + i)).flatten, m.width⟩ := by
    simp [RowMajorMatrix.split_evals]
  refine ⟨by rw [hget], ?_⟩
  rw [hget]
  show (((List.range (m.height / k)).map fun r =>
      m.row (r * k + i)).flatten).length / m.width = m.height / k
  rw [length_flatten_map_range _ m.width (m.height / k) ?_]
  · exact Nat.mul_div_cancel _ hw
  · intro r hr
    apply row_length
    rw [hexact]
    have hk : 0 < k := by omega
    have hmul : m.height / k * k = m.height := Nat.div_mul_cancel hdvd
    have hr1 : (r + 1) * k ≤ m.height := by
      have := Nat.mul_le_mul_right k (by omega : r + 1 ≤ m.height / k)
      omega
    have : r * k + i + 1 ≤ m.height := by
      have h1 : (r + 1) * k = r * k + k := by ring
      omega
    exact Nat.mul_le_mul_right m.width this

lemma create_disjoint_size_pow {F : Type} [Field F] (P : TwoAdicParams F)
    (d0 : Domain F) (N e : Nat) :
    (d0.create_disjoint_domain P (2 ^ N * 2 ^ e)).size = 2 ^ N * 2 ^ e := by
  simp only [Domain.create_disjoint_domain, Domain.size]
  have hp : (2 : Nat) ^ N * 2 ^ e = 2 ^ (N + e) := (pow_add 2 N e).symm
  rw [hp, nat_clog2_pow]

/-- C7: if the lists of constraint systems, trace views and quotient-degree
multipliers do not all have equal length, quotient_values fails with the
length-mismatch contract violation, and the composition with commit also
fails with it, so no commitment is attempted. -/
theorem C7_length_mismatch_aborts {F C : Type} [Field F] [Field C]
    {Com PD : Type} (emb : F →+* C) (qc : QuotientCommitter F C Com PD)
    (E : ExtParams F C) (cs : List (SymbolicExpressionDag F))
    (views : List (RapView (RowMajorMatrix F) F C)) (qds : List Nat)
    (h : cs.length ≠ views.length ∨ cs.length ≠ qds.length) :
    quotient_values emb qc cs views qds = .error .lengthMismatch ∧
      Except.bind (quotient_values emb qc cs views qds) (qc.commit E)
        = .error .lengthMismatch := by
  have h1 : quotient_values emb qc cs views qds = .error .lengthMismatch := by
    simp only [quotient_values]
    rcases h with h | h
    · rw [if_pos h]
    · by_cases h2 : cs.length = views.length
      · rw [if_neg (by omega), if_pos h]
      · rw [if_pos h2]
  exact ⟨h1, by rw [h1]; rfl⟩

/-- C7 witness: two constraint systems against one trace view abort with a
length mismatch before any commitment. -/
theorem C7_witness :
    quotient_values emb13 qc13 [dag0, dag0] [view0] [1, 1]
        = .error .lengthMismatch ∧
      Except.bind (quotient_values emb13 qc13 [dag0, dag0] [view0] [1, 1])
          (qc13.commit E13)
        = .error .lengthMismatch :=
  C7_length_mismatch_aborts emb13 qc13 E13 [dag0, dag0] [view0] [1, 1]
    (Or.inl (by decide))

/-- C2 counterexample: a trace view whose phase list is one trailing phase
without a committed matrix (every earlier phase, vacuously, has one) is
claimed to be accepted, but single_rap_quotient_values fails on it with
the unsupported-configuration condition. -/
theorem C2_counterexample :
    single_rap_quotient_values emb13 qc13 dag0 viewGap 1
      = .error .gapInChallengePhase := rfl

/-- C2 (amended): single_rap_quotient_values fails with the
unsupported-configuration condition exactly when some phase of the view,
trailing or not, has no committed matrix; a view is processed without
failure exactly when every phase carries a committed matrix. -/
theorem C2_amended_gap_condition {F C : Type} [Field F] [Field C]
    {Com PD : Type} (emb : F →+* C) (qc : QuotientCommitter F C Com PD)
    (dag : SymbolicExpressionDag F) (view : RapView (RowMajorMatrix F) F C)
    (qd : Nat) :
    single_rap_quotient_values emb qc dag view qd = .error .gapInChallengePhase
      ↔ ∃ pv ∈ view.per_phase, pv.inner = none := by
  rw [← unzip_phases_none_iff]
  simp only [single_rap_quotient_values]
  cases hu : unzip_phases view.per_phase with
  | none => simp
  | some triple =>
      obtain ⟨ms, chs, exs⟩ := triple
      simp

/-- C1: on success, the trace domain is the canonical domain of size
2^log_trace_height taken from the trace view, and the quotient domain is
the disjoint coset of the trace domain requested at trace size times
quotient degree; for a power-of-two quotient degree its size equals
exactly that product. -/
theorem C1_domains {F C : Type} [Field F] [Field C] {Com PD : Type}
    (emb : F →+* C) (qc : QuotientCommitter F C Com PD)
    (dag : SymbolicExpressionDag F) (view : RapView (RowMajorMatrix F) F C)
    (qd e : Nat) (hqd : qd = 2 ^ e)
    (h : isOkB (single_rap_quotient_values emb qc dag view qd) = true) :
    (natural_domain_for_degree qc.pcs.twoAdic
        (2 ^ view.pair.log_trace_height)).size
        = 2 ^ view.pair.log_trace_height ∧
      (okD (single_rap_quotient_values emb qc dag view qd)
          default_single).quotient_domain
        = (natural_domain_for_degree qc.pcs.twoAdic
            (2 ^ view.pair.log_trace_height)).create_disjoint_domain
            qc.pcs.twoAdic
            ((natural_domain_for_degree qc.pcs.twoAdic
                (2 ^ view.pair.log_trace_height)).size * qd) ∧
      (okD (single_rap_quotient_values emb qc dag view qd)
          default_single).quotient_domain.size
        = (natural_domain_for_degree qc.pcs.twoAdic
            (2 ^ view.pair.log_trace_height)).size * qd := by
  cases hres : single_rap_quotient_values emb qc dag view qd with
  | error er => rw [hres] at h; simp [isOkB] at h
  | ok data =>
      obtain ⟨ms, chs, exs, hu, hdata⟩ :=
        single_rap_ok emb qc dag view qd data hres
      refine ⟨natural_domain_size qc.pcs.twoAdic view.pair.log_trace_height,
        ?_, ?_⟩
      · show data.quotient_domain = _
        rw [hdata]
      · show data.quotient_domain.size = _
        rw [hdata]
        rw [natural_domain_size qc.pcs.twoAdic view.pair.log_trace_height, hqd]
        exact create_disjoint_size_pow qc.pcs.twoAdic _
          view.pair.log_trace_height e

/-- C1 witness: a concrete successful run at log trace height 1 and
quotient degree 1. -/
theorem C1_witness :
    (natural_domain_for_degree qc13.pcs.twoAdic
        (2 ^ view0.pair.log_trace_height)).size
        = 2 ^ view0.pair.log_trace_height ∧
      (okD (single_rap_quotient_values emb13 qc13 dag0 view0 1)
          default_single).quotient_domain
        = (natural_domain_for_degree qc13.pcs.twoAdic
            (2 ^ view0.pair.log_trace_height)).create_disjoint_domain
            qc13.pcs.twoAdic
            ((natural_domain_for_degree qc13.pcs.twoAdic
                (2 ^ view0.pair.log_trace_height)).size * 1) ∧
      (okD (single_rap_quotient_values emb13 qc13 dag0 view0 1)
          default_single).quotient_domain.size
        = (natural_domain_for_degree qc13.pcs.twoAdic
            (2 ^ view0.pair.log_trace_height)).size * 1 :=
  C1_domains emb13 qc13 dag0 view0 1 0 rfl (by decide)

/-- C8 counterexample: for trace height 2 (log trace height 1 in the view)
and quotient degree 1, both tested values, the constructed quotient domain
has size 2 * 1 = 2 and not (2^2) * 1 = 4 as the claim asserts. -/
theorem C8_counterexample :
    (okD (single_rap_quotient_values emb13 qc13 dag0 view0 1)
        default_single).quotient_domain.size = 2 ∧
      ¬ ((okD (single_rap_quotient_values emb13 qc13 dag0 view0 1)
          default_single).quotient_domain.size = 2 ^ 2 * 1) := by
  constructor <;> decide

/-- C8 (amended): for every tested trace height h = 2^k with k between 1
and 20 and every quotient degree d in {1, 2, 4, 8}, the quotient domain
constructed for that height and degree has size h * d (not (2^h) * d). -/
theorem C8_amended_domain_size {F : Type} [Field F] (P : TwoAdicParams F)
    (k d : Nat) (_hk1 : 1 ≤ k) (_hk2 : k ≤ 20)
    (hd : d = 1 ∨ d = 2 ∨ d = 4 ∨ d = 8) :
    ((natural_domain_for_degree P (2 ^ k)).create_disjoint_domain P
        ((natural_domain_for_degree P (2 ^ k)).size * d)).size
      = 2 ^ k * d := by
  rw [natural_domain_size P k]
  rcases hd with h | h | h | h <;> subst h
  · have hc := create_disjoint_size_pow P (natural_domain_for_degree P (2 ^ k)) k 0
    norm_num at hc ⊢
    exact hc
  · have hc := create_disjoint_size_pow P (natural_domain_for_degree P (2 ^ k)) k 1
    norm_num at hc ⊢
    exact hc
  · have hc := create_disjoint_size_pow P (natural_domain_for_degree P (2 ^ k)) k 2
    norm_num at hc ⊢
    exact hc
  · have hc := create_disjoint_size_pow P (natural_domain_for_degree P (2 ^ k)) k 3
    norm_num at hc ⊢
    exact hc

/-- C8 witness: the amended size identity at trace height 2 and quotient
degree 2. -/
theorem C8_witness :
    ((natural_domain_for_degree P13 (2 ^ 1)).create_disjoint_domain P13
        ((natural_domain_for_degree P13 (2 ^ 1)).size * 2)).size
      = 2 ^ 1 * 2 :=
  C8_amended_domain_size P13 1 2 (by norm_num) (by norm_num)
    (by norm_num)

/-- C3: on success of single_rap_quotient_values, the trace domain's
vanishing polynomial is nonzero at every point of the constructed quotient
domain, so the division of the combined constraint value by it never
meets a zero denominator. -/
theorem C3_vanishing_nonzero {F C : Type} [Field F] [Field C] {Com PD : Type}
    (emb : F →+* C) (qc : QuotientCommitter F C Com PD)
    (dag : SymbolicExpressionDag F) (view : RapView (RowMajorMatrix F) F C)
    (qd : Nat)
    (h : isOkB (single_rap_quotient_values emb qc dag view qd) = true)
    (i : Nat) :
    (natural_domain_for_degree qc.pcs.twoAdic
        (2 ^ view.pair.log_trace_height)).zp_at
        ((okD (single_rap_quotient_values emb qc dag view qd)
            default_single).quotient_domain.point i)
      ≠ 0 := by
  cases hres : single_rap_quotient_values emb qc dag view qd with
  | error er => rw [hres] at h; simp [isOkB] at h
  | ok data =>
      obtain ⟨ms, chs, exs, hu, hdata⟩ :=
        single_rap_ok emb qc dag view qd data hres
      show (natural_domain_for_degree qc.pcs.twoAdic
          (2 ^ view.pair.log_trace_height)).zp_at
          (data.quotient_domain.point i) ≠ 0
      rw [hdata]
      exact zp_at_create_disjoint_ne_zero qc.pcs.twoAdic
        view.pair.log_trace_height _ i

/-- C3 witness: the vanishing polynomial of the height-2 trace domain is
nonzero at the first point of the concrete quotient domain. -/
theorem C3_witness :
    (natural_domain_for_degree qc13.pcs.twoAdic
        (2 ^ view0.pair.log_trace_height)).zp_at
        ((okD (single_rap_quotient_values emb13 qc13 dag0 view0 1)
            default_single).quotient_domain.point 0)
      ≠ 0 :=
  C3_vanishing_nonzero emb13 qc13 dag0 view0 1 (by decide) 0

lemma foldl_congr_mem {α β : Type} (g1 g2 : β → α → β) :
    ∀ (l : List α) (b : β), (∀ a ∈ l, ∀ x, g1 x a = g2 x a) →
      l.foldl g1 b = l.foldl g2 b := by
  intro l
  induction l with
  | nil => intro b _; rfl
  | cons a as ih =>
      intro b hg
      simp only [List.foldl_cons]
      rw [hg a (by simp)]
      exact ih _ (fun a' ha' x => hg a' (by simp [ha']) x)

/-- C4: each entry of the per-system quotient evaluation at point index i
is the running fold over the declared constraints, acc * alpha + value in
declared order starting from zero, divided by the trace domain's
vanishing polynomial at the i-th quotient-domain point; the constraint
values are those of the reference (recursive) node evaluator, so the
memoised arena walk computes exactly the declared-order fold. -/
theorem C4_alpha_fold {F C : Type} [Field F] [Field C] (emb : F →+* C)
    (dag : SymbolicExpressionDag F) (t q : Domain F)
    (pre : Option (RowMajorMatrix F)) (main ac : List (RowMajorMatrix F))
    (ch : List (List C)) (alpha : C) (pub : List F) (ex : List (List C))
    (hwf : dag_wf dag.nodes)
    (hidx : ∀ k ∈ dag.constraint_idx, k < dag.nodes.length)
    (i : Nat) (hi : i < q.size) :
    (compute_single_rap_quotient_values emb dag t q pre main ac ch alpha pub
        ex).getD i 0
      = (dag.constraint_idx.foldl
          (fun acc k => acc * alpha +
            eval_node_rec ⟨q.size, pre, main, ac, ch, pub, ex⟩ emb i dag.nodes k)
          0)
        / emb (t.zp_at (q.point i)) := by
  simp only [compute_single_rap_quotient_values]
  rw [getD_map_range _ _ _ _ hi]
  congr 1
  apply foldl_congr_mem
  intro k hk x
  rw [eval_nodes_getD _ emb i dag.nodes hwf k (hidx k hk)]

/-- C4 witness: the fold identity at point 0 for a concrete three-node
constraint system over concrete domains. -/
theorem C4_witness :
    (compute_single_rap_quotient_values emb13 dagC4
        (natural_domain_for_degree P13 (2 ^ 1))
        ((natural_domain_for_degree P13 (2 ^ 1)).create_disjoint_domain P13 4)
        none [⟨[1, 2, 3, 4], 1⟩] [] [] 3 [] []).getD 0 0
      = (dagC4.constraint_idx.foldl
          (fun acc k => acc * 3 +
            eval_node_rec
              ⟨((natural_domain_for_degree P13
                  (2 ^ 1)).create_disjoint_domain P13 4).size,
                none, [⟨[1, 2, 3, 4], 1⟩], [], [], [], []⟩
              emb13 0 dagC4.nodes k)
          0)
        / emb13
            ((natural_domain_for_degree P13 (2 ^ 1)).zp_at
              (((natural_domain_for_degree P13
                  (2 ^ 1)).create_disjoint_domain P13 4).point 0)) :=
  C4_alpha_fold emb13 dagC4 (natural_domain_for_degree P13 (2 ^ 1))
    ((natural_domain_for_degree P13 (2 ^ 1)).create_disjoint_domain P13 4)
    none [⟨[1, 2, 3, 4], 1⟩] [] [] 3 [] [] (by decide) (by decide) 0
    (by decide)

lemma single_split_spec {F C : Type} [Field F] (P : TwoAdicParams F)
    (E : ExtParams F C) (lth e : Nat) (s : F) (hs : s ≠ 0)
    (hmax : lth + e ≤ P.maxLog) (V : List C)
    (hV : V.length = 2 ^ (lth + e)) :
    (SingleQuotientData.split P E
        ⟨2 ^ e, ⟨lth + e, s, P.rootOfLog (lth + e)⟩, V⟩).length = 2 ^ e ∧
      (∀ (i : Nat) (hi : i < (SingleQuotientData.split P E
          ⟨2 ^ e, ⟨lth + e, s, P.rootOfLog (lth + e)⟩, V⟩).length),
        ((SingleQuotientData.split P E
            ⟨2 ^ e, ⟨lth + e, s, P.rootOfLog (lth + e)⟩, V⟩).get
            ⟨i, hi⟩).domain
            = ⟨lth, s * P.rootOfLog (lth + e) ^ i, P.rootOfLog lth⟩ ∧
          ((SingleQuotientData.split P E
              ⟨2 ^ e, ⟨lth + e, s, P.rootOfLog (lth + e)⟩, V⟩).get
              ⟨i, hi⟩).chunk.width = E.dDeg ∧
          ((SingleQuotientData.split P E
              ⟨2 ^ e, ⟨lth + e, s, P.rootOfLog (lth + e)⟩, V⟩).get
              ⟨i, hi⟩).chunk.height = 2 ^ lth) ∧
      (∀ (i j : Nat) (hi : i < (SingleQuotientData.split P E
          ⟨2 ^ e, ⟨lth + e, s, P.rootOfLog (lth + e)⟩, V⟩).length)
          (hj : j < (SingleQuotientData.split P E
          ⟨2 ^ e, ⟨lth + e, s, P.rootOfLog (lth + e)⟩, V⟩).length),
        i ≠ j → ∀ x : F,
          ¬ (Domain.mem_pt ((SingleQuotientData.split P E
              ⟨2 ^ e, ⟨lth + e, s, P.rootOfLog (lth + e)⟩, V⟩).get
              ⟨i, hi⟩).domain x ∧
            Domain.mem_pt ((SingleQuotientData.split P E
              ⟨2 ^ e, ⟨lth + e, s, P.rootOfLog (lth + e)⟩, V⟩).get
              ⟨j, hj⟩).domain x)) ∧
      (∀ x : F,
        Domain.mem_pt ⟨lth + e, s, P.rootOfLog (lth + e)⟩ x ↔
          ∃ (i : Nat) (hi : i < (SingleQuotientData.split P E
              ⟨2 ^ e, ⟨lth + e, s, P.rootOfLog (lth + e)⟩, V⟩).length),
            Domain.mem_pt ((SingleQuotientData.split P E
                ⟨2 ^ e, ⟨lth + e, s, P.rootOfLog (lth + e)⟩, V⟩).get
                ⟨i, hi⟩).domain x) := by
  have he : e ≤ lth + e := by omega
  obtain ⟨hfw, hflen, hfh⟩ := flatten_new_col_dims E V
  have hfh' : ((RowMajorMatrix.new_col V).flatten_to_base E).height
      = 2 ^ (lth + e) := by rw [hfh, hV]
  have hfwpos : 0 < ((RowMajorMatrix.new_col V).flatten_to_base E).width := by
    rw [hfw]; exact E.dDeg_pos
  have hexact : ((RowMajorMatrix.new_col V).flatten_to_base E).values.length
      = ((RowMajorMatrix.new_col V).flatten_to_base E).height *
        ((RowMajorMatrix.new_col V).flatten_to_base E).width := by
    rw [hflen, hfh, hfw]
  have hdvd : 2 ^ e ∣ ((RowMajorMatrix.new_col V).flatten_to_base E).height := by
    rw [hfh']; exact pow_dvd_pow 2 he
  have hsubL : ((⟨lth + e, s, P.rootOfLog (lth + e)⟩ : Domain F).split_domains
      P (2 ^ e)).length = 2 ^ e := split_domains_length P _ _
  have hevalL : (((RowMajorMatrix.new_col V).flatten_to_base E).split_evals
      (2 ^ e)).length = 2 ^ e := split_evals_length _ _
  have hsplit : SingleQuotientData.split P E
      ⟨2 ^ e, ⟨lth + e, s, P.rootOfLog (lth + e)⟩, V⟩
      = List.zipWith QuotientChunk.mk
        ((⟨lth + e, s, P.rootOfLog (lth + e)⟩ : Domain F).split_domains P (2 ^ e))
        (((RowMajorMatrix.new_col V).flatten_to_base E).split_evals (2 ^ e)) := rfl
  have hlen : (SingleQuotientData.split P E
      ⟨2 ^ e, ⟨lth + e, s, P.rootOfLog (lth + e)⟩, V⟩).length = 2 ^ e := by
    rw [hsplit, List.length_zipWith, hsubL, hevalL, Nat.min_self]
  have hgetD : ∀ (i : Nat) (hi : i < (SingleQuotientData.split P E
      ⟨2 ^ e, ⟨lth + e, s, P.rootOfLog (lth + e)⟩, V⟩).length),
      ((SingleQuotientData.split P E
          ⟨2 ^ e, ⟨lth + e, s, P.rootOfLog (lth + e)⟩, V⟩).get ⟨i, hi⟩).domain
        = ⟨lth, s * P.rootOfLog (lth + e) ^ i, P.rootOfLog lth⟩ := by
    intro i hi
    have hi' : i < 2 ^ e := by omega
    have h1 : i < ((⟨lth + e, s, P.rootOfLog (lth + e)⟩ : Domain F).split_domains
        P (2 ^ e)).length := by omega
    have h2 : i < (((RowMajorMatrix.new_col V).flatten_to_base E).split_evals
        (2 ^ e)).length := by omega
    have hz : i < (List.zipWith QuotientChunk.mk
        ((⟨lth + e, s, P.rootOfLog (lth + e)⟩ : Domain F).split_domains P (2 ^ e))
        (((RowMajorMatrix.new_col V).flatten_to_base E).split_evals
          (2 ^ e))).length := by
      rw [← hsplit]; exact hi
    rw [List.get_eq_getElem]
    show (List.zipWith QuotientChunk.mk
        ((⟨lth + e, s, P.rootOfLog (lth + e)⟩ : Domain F).split_domains P (2 ^ e))
        (((RowMajorMatrix.new_col V).flatten_to_base E).split_evals
          (2 ^ e)))[i].domain = _
    rw [List.getElem_zipWith]
    show ((⟨lth + e, s, P.rootOfLog (lth + e)⟩ : Domain F).split_domains
        P (2 ^ e))[i] = _
    have hsd := split_domains_get P
      (⟨lth + e, s, P.rootOfLog (lth + e)⟩ : Domain F) (2 ^ e) i h1
    rw [List.get_eq_getElem] at hsd
    rw [hsd]
    show (⟨lth + e - nat_log2 (2 ^ e), s * P.rootOfLog (lth + e) ^ i,
        P.rootOfLog (lth + e - nat_log2 (2 ^ e))⟩ : Domain F) = _
    rw [nat_log2_pow, Nat.add_sub_cancel]
  have hgetC : ∀ (i : Nat) (hi : i < (SingleQuotientData.split P E
      ⟨2 ^ e, ⟨lth + e, s, P.rootOfLog (lth + e)⟩, V⟩).length),
      ((SingleQuotientData.split P E
          ⟨2 ^ e, ⟨lth + e, s, P.rootOfLog (lth + e)⟩, V⟩).get ⟨i, hi⟩).chunk.width
          = E.dDeg ∧
        ((SingleQuotientData.split P E
            ⟨2 ^ e, ⟨lth + e, s, P.rootOfLog (lth + e)⟩, V⟩).get
            ⟨i, hi⟩).chunk.height = 2 ^ lth := by
    intro i hi
    have h1 : i < ((⟨lth + e, s, P.rootOfLog (lth + e)⟩ : Domain F).split_domains
        P (2 ^ e)).length := by omega
    have h2 : i < (((RowMajorMatrix.new_col V).flatten_to_base E).split_evals
        (2 ^ e)).length := by omega
    have hz : i < (List.zipWith QuotientChunk.mk
        ((⟨lth + e, s, P.rootOfLog (lth + e)⟩ : Domain F).split_domains P (2 ^ e))
        (((RowMajorMatrix.new_col V).flatten_to_base E).split_evals
          (2 ^ e))).length := by
      rw [← hsplit]; exact hi
    have hchunk : ((SingleQuotientData.split P E
        ⟨2 ^ e, ⟨lth + e, s, P.rootOfLog (lth + e)⟩, V⟩).get ⟨i, hi⟩).chunk
        = (((RowMajorMatrix.new_col V).flatten_to_base E).split_evals
            (2 ^ e)).get ⟨i, h2⟩ := by
      rw [List.get_eq_getElem, List.get_eq_getElem]
      show (List.zipWith QuotientChunk.mk
          ((⟨lth + e, s, P.rootOfLog (lth + e)⟩ : Domain F).split_domains
            P (2 ^ e))
          (((RowMajorMatrix.new_col V).flatten_to_base E).split_evals
            (2 ^ e)))[i].chunk = _
      rw [List.getElem_zipWith]
    obtain ⟨hw', hh'⟩ := split_evals_get_spec
      ((RowMajorMatrix.new_col V).flatten_to_base E) (2 ^ e) i hfwpos hexact
      hdvd h2
    rw [hchunk, hw', hh', hfw, hfh']
    refine ⟨rfl, ?_⟩
    rw [Nat.pow_div he (by omega), Nat.add_sub_cancel]
  refine ⟨hlen, fun i hi => ⟨hgetD i hi, hgetC i hi⟩, ?_, ?_⟩
  · intro i j hi hj hne x hmem
    obtain ⟨h1, h2⟩ := hmem
    rw [hgetD i hi] at h1
    rw [hgetD j hj] at h2
    have hd := split_sub_disjoint P (lth + e) e s hs he hmax i j
      (by omega) (by omega) hne x
    simp only [Nat.add_sub_cancel] at hd
    exact hd ⟨h1, h2⟩
  · intro x
    have hc := split_cover P (lth + e) e s he hmax x
    simp only [Nat.add_sub_cancel] at hc
    rw [hc]
    constructor
    · rintro ⟨i, hie, hmem⟩
      exact ⟨i, by omega, by rw [hgetD i (by omega)]; exact hmem⟩
    · rintro ⟨i, hi, hmem⟩
      rw [hgetD i hi] at hmem
      exact ⟨i, by omega, hmem⟩

lemma create_disjoint_of_natural_eq {F : Type} [Field F] (P : TwoAdicParams F)
    (lth e : Nat) :
    (natural_domain_for_degree P (2 ^ lth)).create_disjoint_domain P
        ((natural_domain_for_degree P (2 ^ lth)).size * 2 ^ e)
      = ⟨lth + e, (1 : F) * P.mulGen, P.rootOfLog (lth + e)⟩ := by
  simp only [Domain.create_disjoint_domain, natural_domain_for_degree, Domain.size]
  rw [nat_log2_pow, ← pow_add, nat_clog2_pow]

/-- C5: on success, splitting a single-system quotient result emits exactly
quotient_degree (domain, matrix) pairs: the value vector is reinterpreted
as a base-field matrix with one row per quotient-domain point and one
column per extension coefficient, the quotient domain is partitioned into
quotient_degree pairwise disjoint cosets of trace-domain size that
together cover it, and every emitted matrix has trace-domain-size rows
and extension-degree columns. -/
theorem C5_split_structure {F C : Type} [Field F] [Field C] {Com PD : Type}
    (emb : F →+* C) (qc : QuotientCommitter F C Com PD) (E : ExtParams F C)
    (dag : SymbolicExpressionDag F) (view : RapView (RowMajorMatrix F) F C)
    (qd e : Nat) (hqd : qd = 2 ^ e)
    (hmax : view.pair.log_trace_height + e ≤ qc.pcs.twoAdic.maxLog)
    (h : isOkB (single_rap_quotient_values emb qc dag view qd) = true) :
    ((RowMajorMatrix.new_col (okD (single_rap_quotient_values emb qc dag view
          qd) default_single).quotient_values).flatten_to_base E).height
        = (okD (single_rap_quotient_values emb qc dag view qd)
            default_single).quotient_domain.size ∧
      ((RowMajorMatrix.new_col (okD (single_rap_quotient_values emb qc dag view
          qd) default_single).quotient_values).flatten_to_base E).width
        = E.dDeg ∧
      ((okD (single_rap_quotient_values emb qc dag view qd)
          default_single).split qc.pcs.twoAdic E).length = qd ∧
      (∀ (i : Nat) (hi : i < ((okD (single_rap_quotient_values emb qc dag view
          qd) default_single).split qc.pcs.twoAdic E).length),
        (((okD (single_rap_quotient_values emb qc dag view qd)
            default_single).split qc.pcs.twoAdic E).get ⟨i, hi⟩).domain.size
            = 2 ^ view.pair.log_trace_height ∧
          (((okD (single_rap_quotient_values emb qc dag view qd)
              default_single).split qc.pcs.twoAdic E).get ⟨i, hi⟩).chunk.width
            = E.dDeg ∧
          (((okD (single_rap_quotient_values emb qc dag view qd)
              default_single).split qc.pcs.twoAdic E).get ⟨i, hi⟩).chunk.height
            = 2 ^ view.pair.log_trace_height) ∧
      (∀ (i j : Nat) (hi : i < ((okD (single_rap_quotient_values emb qc dag
          view qd) default_single).split qc.pcs.twoAdic E).length)
          (hj : j < ((okD (single_rap_quotient_values emb qc dag view qd)
          default_single).split qc.pcs.twoAdic E).length),
        i ≠ j → ∀ x : F,
          ¬ (Domain.mem_pt ((((okD (single_rap_quotient_values emb qc dag view
              qd) default_single).split qc.pcs.twoAdic E).get
              ⟨i, hi⟩).domain) x ∧
            Domain.mem_pt ((((okD (single_rap_quotient_values emb qc dag view
              qd) default_single).split qc.pcs.twoAdic E).get
              ⟨j, hj⟩).domain) x)) ∧
      (∀ x : F,
        Domain.mem_pt (okD (single_rap_quotient_values emb qc dag view qd)
            default_single).quotient_domain x ↔
          ∃ (i : Nat) (hi : i < ((okD (single_rap_quotient_values emb qc dag
              view qd) default_single).split qc.pcs.twoAdic E).length),
            Domain.mem_pt ((((okD (single_rap_quotient_values emb qc dag view
                qd) default_single).split qc.pcs.twoAdic E).get
                ⟨i, hi⟩).domain) x) := by
  cases hres : single_rap_quotient_values emb qc dag view qd with
  | error er => rw [hres] at h; simp [isOkB] at h
  | ok data =>
      obtain ⟨ms, chs, exs, hu, hdata⟩ :=
        single_rap_ok emb qc dag view qd data hres
      have hQ := create_disjoint_of_natural_eq qc.pcs.twoAdic
        view.pair.log_trace_height e
      rw [hqd] at hdata
      rw [hQ] at hdata
      set s : F := (1 : F) * qc.pcs.twoAdic.mulGen with hsdef
      have hs : s ≠ 0 := by
        rw [hsdef, one_mul]; exact qc.pcs.twoAdic.mulGen_ne_zero
      set V : List C := data.quotient_values with hVdef
      have hVstruct : data = ⟨2 ^ e,
          ⟨view.pair.log_trace_height + e, s,
            qc.pcs.twoAdic.rootOfLog (view.pair.log_trace_height + e)⟩, V⟩ := by
        rw [hVdef, hdata]
      have hV : V.length = 2 ^ (view.pair.log_trace_height + e) := by
        rw [hVdef, hdata]
        show (compute_single_rap_quotient_values emb dag _ _ _ _ _ _ _ _
          _).length = _
        rw [compute_single_length]
        rfl
      obtain ⟨hlen, hper, hdisj, hcover⟩ := single_split_spec qc.pcs.twoAdic E
        view.pair.log_trace_height e s hs hmax V hV
      simp only [okD]
      rw [hVstruct]
      refine ⟨?_, ?_, by rw [hqd]; exact hlen, ?_, hdisj, hcover⟩
      · obtain ⟨hfw, hflen, hfh⟩ := flatten_new_col_dims E V
        rw [hfh, hV]
        rfl
      · exact (flatten_new_col_dims E V).1
      · intro i hi
        obtain ⟨hD, hw, hh⟩ := hper i hi
        refine ⟨?_, hw, hh⟩
        rw [hD]
        rfl

/-- C5 witness: the concrete degree-1 split emits exactly one chunk. -/
theorem C5_witness :
    ((okD (single_rap_quotient_values emb13 qc13 dag0 view0 1)
        default_single).split qc13.pcs.twoAdic E13).length = 1 :=
  (C5_split_structure emb13 qc13 E13 dag0 view0 1 0 rfl (by decide)
    (by decide)).2.2.1

/-- C9: on success with n systems, the result holds exactly n per-system
entries in input order; the i-th entry stores the i-th quotient degree
(value preserved by the u8-to-usize widening) and the quotient domain
derived from the i-th view's log trace height, and equals the evaluation
of exactly the i-th input triple, so no entry mixes input indices. -/
theorem C9_result_structure {F C : Type} [Field F] [Field C] {Com PD : Type}
    (emb : F →+* C) (qc : QuotientCommitter F C Com PD)
    (cs : List (SymbolicExpressionDag F))
    (views : List (RapView (RowMajorMatrix F) F C)) (qds : List Nat)
    (h : isOkB (quotient_values emb qc cs views qds) = true) :
    (okD (quotient_values emb qc cs views qds) default_qdata).inner.length
        = cs.length ∧
      ∀ (i : Nat), i < cs.length → i < views.length → i < qds.length →
        ((okD (quotient_values emb qc cs views qds)
            default_qdata).inner.getD i default_single).quotient_degree
            = qds.getD i 0 ∧
          ((okD (quotient_values emb qc cs views qds)
              default_qdata).inner.getD i default_single).quotient_domain
            = (natural_domain_for_degree qc.pcs.twoAdic
                (2 ^ (views.getD i default_view).pair.log_trace_height)).create_disjoint_domain
                qc.pcs.twoAdic
                ((natural_domain_for_degree qc.pcs.twoAdic
                    (2 ^ (views.getD i
                        default_view).pair.log_trace_height)).size *
                  qds.getD i 0) ∧
          single_rap_quotient_values emb qc (cs.getD i default_dag)
              (views.getD i default_view) (qds.getD i 0)
            = .ok ((okD (quotient_values emb qc cs views qds)
                default_qdata).inner.getD i default_single) := by
  cases hres : quotient_values emb qc cs views qds with
  | error er => rw [hres] at h; simp [isOkB] at h
  | ok data =>
      obtain ⟨hcv, hcq, hlen, hsingle⟩ :=
        quotient_values_ok emb qc cs views qds data hres
      refine ⟨hlen, ?_⟩
      intro i h1 h2 h3
      have h4 : i < data.inner.length := by omega
      have hget := hsingle i h1 h2 h3 h4
      have hgdD : (okD (Except.ok data : Except ProverError (QuotientData F C))
            default_qdata).inner.getD i default_single
          = data.inner.get ⟨i, h4⟩ := by
        show data.inner.getD i default_single = _
        rw [List.getD_eq_getElem _ _ h4, List.get_eq_getElem]
      have hcsD : cs.getD i default_dag = cs.get ⟨i, h1⟩ := by
        rw [List.getD_eq_getElem _ _ h1, List.get_eq_getElem]
      have hvD : views.getD i default_view = views.get ⟨i, h2⟩ := by
        rw [List.getD_eq_getElem _ _ h2, List.get_eq_getElem]
      have hqD : qds.getD i 0 = qds.get ⟨i, h3⟩ := by
        rw [List.getD_eq_getElem _ _ h3, List.get_eq_getElem]
      rw [hgdD, hcsD, hvD, hqD]
      obtain ⟨ms, chs, exs, hu, hdata⟩ := single_rap_ok emb qc
        (cs.get ⟨i, h1⟩) (views.get ⟨i, h2⟩) (qds.get ⟨i, h3⟩)
        (data.inner.get ⟨i, h4⟩) hget
      refine ⟨?_, ?_, hget⟩
      · rw [hdata]
      · rw [hdata]

/-- C9 witness: the concrete single-system run yields one entry with
quotient degree 1 and the derived quotient domain. -/
theorem C9_witness :
    (okD (quotient_values emb13 qc13 [dag0] [view0] [1])
        default_qdata).inner.length = 1 ∧
      ((okD (quotient_values emb13 qc13 [dag0] [view0] [1])
          default_qdata).inner.getD 0 default_single).quotient_degree = 1 :=
  ⟨(C9_result_structure emb13 qc13 [dag0] [view0] [1] (by decide)).1,
    ((C9_result_structure emb13 qc13 [dag0] [view0] [1] (by decide)).2 0
      (by decide) (by decide) (by decide)).1⟩

lemma mapMOpt_forall_some {α β : Type} (f : α → Option β) (g : α → β) :
    ∀ (l : List α), (∀ a ∈ l, f a = some (g a)) →
      mapMOpt f l = some (l.map g) := by
  intro l
  induction l with
  | nil => intro _; rfl
  | cons a as ih =>
      intro hfg
      simp only [mapMOpt]
      rw [hfg a (by simp), ih (fun a' ha' => hfg a' (by simp [ha']))]
      rfl

lemma flatMap_congr_pointwise {α β γ : Type} (f : α → List γ) (g : β → List γ) :
    ∀ (l1 : List α) (l2 : List β), l1.length = l2.length →
      (∀ (i : Nat) (h1 : i < l1.length) (h2 : i < l2.length),
        f (l1.get ⟨i, h1⟩) = g (l2.get ⟨i, h2⟩)) →
      l1.flatMap f = l2.flatMap g := by
  intro l1
  induction l1 with
  | nil =>
      intro l2 hlen _
      match l2 with
      | [] => rfl
  | cons a as ih =>
      intro l2 hlen hpt
      match l2 with
      | b :: bs =>
          simp only [List.flatMap_cons]
          have h0 : f a = g b := hpt 0 (by simp) (by simp)
          rw [h0]
          rw [ih bs (by simpa using hlen)
            (fun i h1 h2 => hpt (i + 1) (by simpa using h1) (by simpa using h2))]

lemma split_length_always {F C : Type} [Field F] (P : TwoAdicParams F)
    (E : ExtParams F C) (d : SingleQuotientData F C) :
    (d.split P E).length = d.quotient_degree := by
  show (List.zipWith QuotientChunk.mk _ _).length = _
  rw [List.length_zipWith, split_domains_length, split_evals_length,
    Nat.min_self]

lemma split_getElem_domain {F C : Type} [Field F] (P : TwoAdicParams F)
    (E : ExtParams F C) (d : SingleQuotientData F C) (i : Nat)
    (hi : i < (d.split P E).length) :
    ((d.split P E).get ⟨i, hi⟩).domain
      = ⟨d.quotient_domain.logN - nat_log2 d.quotient_degree,
          d.quotient_domain.shift * d.quotient_domain.gen ^ i,
          P.rootOfLog (d.quotient_domain.logN - nat_log2 d.quotient_degree)⟩ := by
  have hi' : i < d.quotient_degree := by
    have := split_length_always P E d
    omega
  have h1 : i < (d.quotient_domain.split_domains P d.quotient_degree).length := by
    rw [split_domains_length]; omega
  have hz : i < (List.zipWith QuotientChunk.mk
      (d.quotient_domain.split_domains P d.quotient_degree)
      (((RowMajorMatrix.new_col d.quotient_values).flatten_to_base E).split_evals
        d.quotient_degree)).length := hi
  rw [List.get_eq_getElem]
  show (List.zipWith QuotientChunk.mk
      (d.quotient_domain.split_domains P d.quotient_degree)
      (((RowMajorMatrix.new_col d.quotient_values).flatten_to_base E).split_evals
        d.quotient_degree))[i].domain = _
  rw [List.getElem_zipWith]
  show (d.quotient_domain.split_domains P d.quotient_degree)[i] = _
  have hsd := split_domains_get P d.quotient_domain d.quotient_degree i h1
  rw [List.get_eq_getElem] at hsd
  rw [hsd]

lemma split_map_logN {F C : Type} [Field F] (P : TwoAdicParams F)
    (E : ExtParams F C) (d : SingleQuotientData F C) :
    (d.split P E).map (fun q => q.domain.logN % 2 ^ 8)
      = List.replicate d.quotient_degree
          ((d.quotient_domain.logN - nat_log2 d.quotient_degree) % 2 ^ 8) := by
  apply List.ext_getElem
  · rw [List.length_map, split_length_always, List.length_replicate]
  · intro i hi1 hi2
    rw [List.getElem_map, List.getElem_replicate]
    have hi : i < (d.split P E).length := by
      rw [List.length_map] at hi1; omega
    have hd := split_getElem_domain P E d i hi
    rw [List.get_eq_getElem] at hd
    rw [hd]

lemma commit_total {F C : Type} [Field F] [Field C] {Com PD : Type}
    (E : ExtParams F C) (qc : QuotientCommitter F C Com PD)
    (data : QuotientData F C) :
    qc.commit E data = .ok
      ((qc.pcs.commitFn ((data.split qc.pcs.twoAdic E).map
          fun q => (q.domain, q.chunk))).1,
        ⟨(qc.pcs.commitFn ((data.split qc.pcs.twoAdic E).map
            fun q => (q.domain, q.chunk))).2,
          (data.split qc.pcs.twoAdic E).map fun q => q.domain.logN % 2 ^ 8⟩) := by
  simp only [QuotientCommitter.commit]
  rw [mapMOpt_forall_some
    (fun q => (log2_strict_usize q.domain.size).map (· % 2 ^ 8))
    (fun q => q.domain.logN % 2 ^ 8)
    (data.split qc.pcs.twoAdic E) ?_]
  · intro q _
    show (log2_strict_usize (2 ^ q.domain.logN)).map (· % 2 ^ 8) = _
    rw [log2_strict_usize_pow]
    rfl

/-- C6: commit invokes the commitment primitive once, over the full
concatenated ordered list of (domain, matrix) chunk pairs of all systems,
and returns its commitment together with an opening context whose
recorded exponents are, chunk by chunk in the same order, the log base 2
of the chunk's domain size, which is the originating system's log trace
height. -/
theorem C6_commit_once_with_logs {F C : Type} [Field F] [Field C]
    {Com PD : Type} (emb : F →+* C) (qc : QuotientCommitter F C Com PD)
    (E : ExtParams F C) (cs : List (SymbolicExpressionDag F))
    (views : List (RapView (RowMajorMatrix F) F C)) (qds : List Nat)
    (h : isOkB (quotient_values emb qc cs views qds) = true)
    (hqds : ∀ i, i < qds.length → ∃ e, qds.getD i 0 = 2 ^ e)
    (hlth : ∀ i, i < views.length →
      (views.getD i default_view).pair.log_trace_height < 2 ^ 8) :
    qc.commit E (okD (quotient_values emb qc cs views qds) default_qdata)
      = .ok
        ((qc.pcs.commitFn (((okD (quotient_values emb qc cs views qds)
            default_qdata).split qc.pcs.twoAdic E).map
            fun q => (q.domain, q.chunk))).1,
          ⟨(qc.pcs.commitFn (((okD (quotient_values emb qc cs views qds)
              default_qdata).split qc.pcs.twoAdic E).map
              fun q => (q.domain, q.chunk))).2,
            (views.zip qds).flatMap
              (fun vq => List.replicate vq.2 vq.1.pair.log_trace_height)⟩) := by
  rw [commit_total]
  have hlogs : ((okD (quotient_values emb qc cs views qds)
        default_qdata).split qc.pcs.twoAdic E).map
        (fun q => q.domain.logN % 2 ^ 8)
      = (views.zip qds).flatMap
          (fun vq => List.replicate vq.2 vq.1.pair.log_trace_height) := by
    cases hres : quotient_values emb qc cs views qds with
    | error er => rw [hres] at h; simp [isOkB] at h
    | ok data =>
        obtain ⟨hcv, hcq, hlen, hsingle⟩ :=
          quotient_values_ok emb qc cs views qds data hres
        show (QuotientData.split qc.pcs.twoAdic E data).map
            (fun q => q.domain.logN % 2 ^ 8) = _
        show ((data.inner.flatMap fun d => d.split qc.pcs.twoAdic E).map
            (fun q => q.domain.logN % 2 ^ 8)) = _
        rw [List.map_flatMap]
        apply flatMap_congr_pointwise
        · rw [List.length_zip views qds]
          omega
        · intro i h1 h2
          have hiN : i < cs.length := by omega
          have hiv : i < views.length := by omega
          have hiq : i < qds.length := by omega
          have hsi := hsingle i hiN hiv hiq h1
          obtain ⟨ms, chs, exs, hu, hdata⟩ := single_rap_ok emb qc
            (cs.get ⟨i, hiN⟩) (views.get ⟨i, hiv⟩) (qds.get ⟨i, hiq⟩)
            (data.inner.get ⟨i, h1⟩) hsi
          obtain ⟨e, he⟩ := hqds i hiq
          have hqg : qds.get ⟨i, hiq⟩ = 2 ^ e := by
            rw [← he, List.getD_eq_getElem _ _ hiq, List.get_eq_getElem]
          have hlt : (views.get ⟨i, hiv⟩).pair.log_trace_height < 2 ^ 8 := by
            have hv := hlth i hiv
            rw [List.getD_eq_getElem _ _ hiv] at hv
            exact hv
          have hzg : (views.zip qds).get ⟨i, h2⟩
              = (views.get ⟨i, hiv⟩, qds.get ⟨i, hiq⟩) := by
            rw [List.get_eq_getElem, List.getElem_zip,
              List.get_eq_getElem, List.get_eq_getElem]
          have hdeg : (data.inner.get ⟨i, h1⟩).quotient_degree = 2 ^ e := by
            rw [hdata]
            exact hqg
          have hdom : (data.inner.get ⟨i, h1⟩).quotient_domain
              = ⟨(views.get ⟨i, hiv⟩).pair.log_trace_height + e,
                  (1 : F) * qc.pcs.twoAdic.mulGen,
                  qc.pcs.twoAdic.rootOfLog
                    ((views.get ⟨i, hiv⟩).pair.log_trace_height + e)⟩ := by
            rw [hdata]
            dsimp only
            rw [hqg, create_disjoint_of_natural_eq]
          show ((data.inner.get ⟨i, h1⟩).split qc.pcs.twoAdic E).map
              (fun q => q.domain.logN % 2 ^ 8)
              = List.replicate ((views.zip qds).get ⟨i, h2⟩).2
                  ((views.zip qds).get ⟨i, h2⟩).1.pair.log_trace_height
          rw [split_map_logN, hdeg, hdom, hzg]
          dsimp only
          rw [nat_log2_pow, Nat.add_sub_cancel, Nat.mod_eq_of_lt hlt, hqg]
  rw [hlogs]

/-- C10: every chunk domain produced by split has an exact power-of-two
size, so the log2_strict_usize call of commit never reaches its failure
branch, the computed exponent fits in a u8, and commit succeeds. -/
theorem C10_chunk_exponent_safe {F C : Type} [Field F] [Field C]
    {Com PD : Type} (emb : F →+* C) (qc : QuotientCommitter F C Com PD)
    (E : ExtParams F C) (cs : List (SymbolicExpressionDag F))
    (views : List (RapView (RowMajorMatrix F) F C)) (qds : List Nat)
    (h : isOkB (quotient_values emb qc cs views qds) = true)
    (hqds : ∀ i, i < qds.length → ∃ e, qds.getD i 0 = 2 ^ e)
    (hlth : ∀ i, i < views.length →
      (views.getD i default_view).pair.log_trace_height < 2 ^ 8) :
    (∀ q ∈ (okD (quotient_values emb qc cs views qds)
        default_qdata).split qc.pcs.twoAdic E,
      log2_strict_usize q.domain.size ≠ none ∧
        ∀ l : Nat, log2_strict_usize q.domain.size = some l → l < 2 ^ 8) ∧
      isOkB (qc.commit E (okD (quotient_values emb qc cs views qds)
        default_qdata)) = true := by
  constructor
  · intro q hq
    cases hres : quotient_values emb qc cs views qds with
    | error er => rw [hres] at h; simp [isOkB] at h
    | ok data =>
        obtain ⟨hcv, hcq, hlen, hsingle⟩ :=
          quotient_values_ok emb qc cs views qds data hres
        rw [hres] at hq
        have hq' : q ∈ data.inner.flatMap
            (fun d => d.split qc.pcs.twoAdic E) := hq
        obtain ⟨d, hd, hqd⟩ := List.mem_flatMap.mp hq'
        obtain ⟨⟨j, hj⟩, hdj⟩ := List.mem_iff_get.mp hd
        obtain ⟨⟨i2, hi2⟩, hqi⟩ := List.mem_iff_get.mp hqd
        have hjN : j < cs.length := by omega
        have hjv : j < views.length := by omega
        have hjq : j < qds.length := by omega
        have hsj := hsingle j hjN hjv hjq hj
        rw [hdj] at hsj
        obtain ⟨ms, chs, exs, hu, hdata⟩ := single_rap_ok emb qc
          (cs.get ⟨j, hjN⟩) (views.get ⟨j, hjv⟩) (qds.get ⟨j, hjq⟩) d hsj
        obtain ⟨e, he⟩ := hqds j hjq
        have hqg : qds.get ⟨j, hjq⟩ = 2 ^ e := by
          rw [← he, List.getD_eq_getElem _ _ hjq, List.get_eq_getElem]
        have hlt : (views.get ⟨j, hjv⟩).pair.log_trace_height < 2 ^ 8 := by
          have hv := hlth j hjv
          rw [List.getD_eq_getElem _ _ hjv] at hv
          exact hv
        have hdeg : d.quotient_degree = 2 ^ e := by
          rw [hdata]
          exact hqg
        have hdom2 : d.quotient_domain
            = ⟨(views.get ⟨j, hjv⟩).pair.log_trace_height + e,
                (1 : F) * qc.pcs.twoAdic.mulGen,
                qc.pcs.twoAdic.rootOfLog
                  ((views.get ⟨j, hjv⟩).pair.log_trace_height + e)⟩ := by
          rw [hdata]
          dsimp only
          rw [hqg, create_disjoint_of_natural_eq]
        have hdom := split_getElem_domain qc.pcs.twoAdic E d i2 hi2
        rw [hqi] at hdom
        have hlogval : q.domain.logN
            = (views.get ⟨j, hjv⟩).pair.log_trace_height := by
          rw [hdom, hdeg, hdom2]
          dsimp only
          rw [nat_log2_pow]
          exact Nat.add_sub_cancel _ _
        have hsz : q.domain.size = 2 ^ q.domain.logN := rfl
        rw [hsz, log2_strict_usize_pow]
        refine ⟨by simp, ?_⟩
        intro l hl
        cases hl
        rw [hlogval]
        exact hlt
  · rw [commit_total]
    rfl

/-- C6 witness: commit on the concrete single-system result returns the
single commitment over the full chunk pair list together with the
per-chunk log trace heights. -/
theorem C6_witness :
    qc13.commit E13 (okD (quotient_values emb13 qc13 [dag0] [view0] [1])
        default_qdata)
      = .ok
        ((qc13.pcs.commitFn (((okD (quotient_values emb13 qc13 [dag0] [view0]
            [1]) default_qdata).split qc13.pcs.twoAdic E13).map
            fun q => (q.domain, q.chunk))).1,
          ⟨(qc13.pcs.commitFn (((okD (quotient_values emb13 qc13 [dag0]
              [view0] [1]) default_qdata).split qc13.pcs.twoAdic E13).map
              fun q => (q.domain, q.chunk))).2,
            ([view0].zip [1]).flatMap
              (fun vq => List.replicate vq.2 vq.1.pair.log_trace_height)⟩) :=
  C6_commit_once_with_logs emb13 qc13 E13 [dag0] [view0] [1] (by decide)
    (by
      intro i hi
      have hi0 : i = 0 := by simp at hi; omega
      subst hi0
      exact ⟨0, rfl⟩)
    (by
      intro i hi
      have hi0 : i = 0 := by simp at hi; omega
      subst hi0
      decide)

/-- C10 witness: commit succeeds on the concrete single-system result, the
log2_strict_usize failure branch being unreachable. -/
theorem C10_witness :
    isOkB (qc13.commit E13 (okD (quotient_values emb13 qc13 [dag0] [view0]
        [1]) default_qdata)) = true :=
  (C10_chunk_exponent_safe emb13 qc13 E13 [dag0] [view0] [1] (by decide)
    (by
      intro i hi
      have hi0 : i = 0 := by simp at hi; omega
      subst hi0
      exact ⟨0, rfl⟩)
    (by
      intro i hi
      have hi0 : i = 0 := by simp at hi; omega
      subst hi0
      decide)).2
